import Mathlib

/-!
Verification of the music-jobs scraper core (dedup store, row model, URL
normalization, keyword matcher, orchestrator loop) against its source.

The Python sources are embedded shallowly:
* `utils.py` : `_normalize_url`, `load_seen`, `save_seen`, `append_csv`,
  `job_matches_music`, `normalized_now`, `mk_row`;
* `music_scraper.py` / `scraper.py` : the per-row dedup loop of `run`
  (`processRows`), its event trace (`processRowsTr`), and the per-target
  loop with its try/except boundary (`runTargets`).

Machine strings are `String`/`List Char`; Python `None`-able string
arguments are `Option String`; the filesystem states that `load_seen`
distinguishes are the constructors of `SeenFile`; wall-clock time is an
explicit `UTCTime` argument.  CPython 3.11's `urllib.parse.urlparse` /
`urlunparse` (as called with empty params/query/fragment) are modelled
on `List Char` following the CPython source: the WHATWG pre-cleaning
(leading control/space strip, tab/newline removal), scheme detection
with lowercasing, netloc splitting with the IPv6 bracket `ValueError`,
fragment/query stripping, params splitting on the last path segment
gated by `uses_params`, and reassembly gated by `uses_netloc`.  (The
further `ValueError`s of bracketed-host validation, which the fallback
of `_normalize_url` also maps to the identity, are outside the modelled
input space.)  The `\w` word characters and `IGNORECASE` letter
equivalents of `re` on `str` are Unicode: both are enumerated from the
CPython 3.11 interpreter's own `re` module.
-/

/-- Python's `str.lower` restricted to ASCII, as applied by `urlsplit` to
the scheme (whose characters are ASCII by the scheme-character check). -/
def pyLower (c : Char) : Char :=
  if 'A' ≤ c ∧ c ≤ 'Z' then Char.ofNat (c.toNat + 32) else c

/-- The canonical row produced by `mk_row` in `utils.py` (a dict with
exactly these nine keys, all string-valued). -/
structure JobRow where
  company : String
  platform : String
  title : String
  location : String
  job_id : String
  url : String
  posted_at_iso : String
  detected_on_iso : String
  matched_on : String
deriving DecidableEq

/-- The identity key computed in both `run` loops:
`f"{j['platform']}::{j['company']}::{j['job_id']}::{j['url']}"`. -/
def rowKey (j : JobRow) : String :=
  j.platform ++ "::" ++ j.company ++ "::" ++ j.job_id ++ "::" ++ j.url

/-- The per-row dedup loop of `run` (music_scraper.py lines 208-217,
scraper.py lines 55-63): for each row, build the key; `continue` if the
key is in `seen`; otherwise `seen.add(key)` and `append_csv(j)`.  The
in-memory Python set is modelled as a list of keys (membership only),
the CSV sink as the list of appended rows. -/
def processRows : List JobRow → List String → List JobRow → List String × List JobRow
  | [], seen, sink => (seen, sink)
  | j :: rest, seen, sink =>
    if rowKey j ∈ seen then processRows rest seen sink
    else processRows rest (rowKey j :: seen) (sink ++ [j])

/-- A concrete row as `mk_row` would build it for a greenhouse posting. -/
def rowA : JobRow :=
  { company := "acme", platform := "greenhouse", title := "Music Director"
    location := "NYC", job_id := "7", url := "https://x.com/job/7"
    posted_at_iso := "", detected_on_iso := "2026-01-01T00:00:00Z"
    matched_on := "title_or_description" }

/-- A row identical to `rowA` in (platform, company, job_id, url) but with
a different title. -/
def rowB : JobRow :=
  { rowA with title := "Director of Music" }

theorem processRows_nil (seen : List String) (sink : List JobRow) :
    processRows [] seen sink = (seen, sink) := rfl

theorem processRows_skip {j : JobRow} {seen : List String}
    (h : rowKey j ∈ seen) (rest : List JobRow) (sink : List JobRow) :
    processRows (j :: rest) seen sink = processRows rest seen sink := by
  simp [processRows, h]

theorem processRows_accept {j : JobRow} {seen : List String}
    (h : rowKey j ∉ seen) (rest : List JobRow) (sink : List JobRow) :
    processRows (j :: rest) seen sink
      = processRows rest (rowKey j :: seen) (sink ++ [j]) := by
  simp [processRows, h]

theorem processRows_sink_acc (rows : List JobRow) :
    ∀ (seen : List String) (sink : List JobRow),
      (processRows rows seen sink).2 = sink ++ (processRows rows seen []).2 := by
  induction rows with
  | nil => intro seen sink; simp [processRows]
  | cons j rest ih =>
    intro seen sink
    by_cases h : rowKey j ∈ seen
    · rw [processRows_skip h, processRows_skip h, ih]
    · rw [processRows_accept h, processRows_accept h, ih]
      rw [ih (rowKey j :: seen) ([] ++ [j])]
      simp

/-- Every key appended by the loop was absent from the seen set it was
examined against, and no key is appended twice. -/
theorem processRows_fresh (rows : List JobRow) :
    ∀ (seen : List String),
      (∀ k ∈ ((processRows rows seen []).2.map rowKey), k ∉ seen)
      ∧ ((processRows rows seen []).2.map rowKey).Nodup := by
  induction rows with
  | nil => intro seen; simp [processRows]
  | cons j rest ih =>
    intro seen
    by_cases h : rowKey j ∈ seen
    · rw [processRows_skip h]; exact ih seen
    · rw [processRows_accept h, processRows_sink_acc]
      have hrec := ih (rowKey j :: seen)
      constructor
      · intro k hk
        simp only [List.map_append, List.mem_append] at hk
        rcases hk with hk | hk
        · simp at hk; subst hk; exact h
        · intro hks
          exact (hrec.1 k hk) (List.mem_cons_of_mem _ hks)
      · simp only [List.map_append]
        refine List.Nodup.append ?_ hrec.2 ?_
        · simp
        · intro k hk hk2
          simp at hk; subst hk
          exact (hrec.1 _ hk2) (List.mem_cons_self _ _)

/-- C1: a row is appended to the sink iff its identity key
(platform::company::job_id::url, the url being the normalized one stored
in the row) is absent from the seen set at the moment the row is
examined; the key ignores the title, so of two rows identical in
(platform, company, job_id, url) but differing in title the second is
skipped; appended keys are fresh and pairwise distinct. -/
theorem run_dedup_correct :
    (∀ (j : JobRow) (rest : List JobRow) (seen : List String) (sink : List JobRow),
        (rowKey j ∈ seen → processRows (j :: rest) seen sink = processRows rest seen sink)
        ∧ (rowKey j ∉ seen →
            processRows (j :: rest) seen sink
              = processRows rest (rowKey j :: seen) (sink ++ [j])))
    ∧ (∀ r1 r2 : JobRow, r1.platform = r2.platform → r1.company = r2.company →
        r1.job_id = r2.job_id → r1.url = r2.url → rowKey r1 = rowKey r2)
    ∧ (∀ (rows : List JobRow) (seen : List String),
        (∀ k ∈ ((processRows rows seen []).2.map rowKey), k ∉ seen)
        ∧ ((processRows rows seen []).2.map rowKey).Nodup)
    ∧ rowKey rowA = rowKey rowB
    ∧ (processRows [rowA, rowB] [] []).2 = [rowA] := by
  refine ⟨?_, ?_, ?_, ?_, ?_⟩
  · intro j rest seen sink
    exact ⟨fun h => processRows_skip h rest sink, fun h => processRows_accept h rest sink⟩
  · intro r1 r2 h1 h2 h3 h4
    simp [rowKey, h1, h2, h3, h4]
  · intro rows seen
    exact processRows_fresh rows seen
  · rfl
  · decide

/-- Witness for C1 at concrete inputs: a key already in the seen set is
skipped, a fresh key is appended. -/
theorem run_dedup_correct_witness :
    processRows [rowA] [rowKey rowA] [] = processRows [] [rowKey rowA] []
    ∧ processRows [rowB] [] [] = processRows [] [rowKey rowB] ([] ++ [rowB]) := by
  constructor
  · exact (run_dedup_correct.1 rowA [] [rowKey rowA] []).1 (by decide)
  · exact (run_dedup_correct.1 rowB [] [] []).2 (by decide)

/-- The two state-changing operations the loop performs for an accepted
row, in program order. -/
inductive Ev where
  | mark (k : String)
  | append (j : JobRow)
deriving DecidableEq

/-- The dedup loop again, recording the program-order event trace of an
accepted row: `seen.add(key)` is executed first (line 212 / line 59),
`append_csv(j)` second (line 213 / line 60). -/
def processRowsTr : List JobRow → List String → List Ev → List String × List Ev
  | [], seen, tr => (seen, tr)
  | j :: rest, seen, tr =>
    if rowKey j ∈ seen then processRowsTr rest seen tr
    else processRowsTr rest (rowKey j :: seen) (tr ++ [Ev.mark (rowKey j), Ev.append j])

/-- The ordering property C2 asserts: somewhere in the trace the append
of the row occurs strictly before the mark of its key. -/
def appendBeforeMark (tr : List Ev) (j : JobRow) : Prop :=
  ∃ i k, i < k ∧ tr.get? i = some (Ev.append j) ∧ tr.get? k = some (Ev.mark (rowKey j))

/-- C2 counterexample: processing the single fresh row `rowA` emits the
trace `[mark, append]` — the append never precedes the mark. -/
theorem mark_append_order_counterexample :
    (processRowsTr [rowA] [] []).2 = [Ev.mark (rowKey rowA), Ev.append rowA]
    ∧ ¬ appendBeforeMark (processRowsTr [rowA] [] []).2 rowA := by
  have htr : (processRowsTr [rowA] [] []).2 = [Ev.mark (rowKey rowA), Ev.append rowA] := by
    decide
  refine ⟨htr, ?_⟩
  rw [htr]
  rintro ⟨i, k, hik, hi, hk⟩
  match i, hi with
  | 0, hi => exact absurd hi (by decide)
  | 1, hi =>
    match k, hik, hk with
    | k + 2, _, hk => exact absurd hk (by simp)
  | n + 2, hi => exact absurd hi (by simp)

/-- C2 amended: for every accepted row the loop adds the identity key to
the in-memory seen set immediately BEFORE appending the row to the sink —
the trace of an accepted row is `[mark key, append row]` in that order. -/
theorem mark_then_append {j : JobRow} {seen : List String}
    (h : rowKey j ∉ seen) (rest : List JobRow) (tr : List Ev) :
    processRowsTr (j :: rest) seen tr
      = processRowsTr rest (rowKey j :: seen) (tr ++ [Ev.mark (rowKey j), Ev.append j]) := by
  simp [processRowsTr, h]

/-- Witness for C2's amended theorem at a concrete fresh row. -/
theorem mark_then_append_witness :
    processRowsTr [rowA] [] []
      = processRowsTr [] [rowKey rowA] ([] ++ [Ev.mark (rowKey rowA), Ev.append rowA]) :=
  mark_then_append (by decide) [] []

/-- The per-target loop of `run` (music_scraper.py lines 194-219,
scraper.py lines 44-91): each target's adapter call either raises —
caught by the `try/except` at lines 201-205 / 49-53, the target is
skipped with `continue` — or returns a list of rows fed to the dedup
loop.  Targets are processed in order against the threaded seen set and
sink. -/
def runTargets : List (Except String (List JobRow)) → List String → List JobRow → List String × List JobRow
  | [], seen, sink => (seen, sink)
  | Except.error _ :: ts, seen, sink => runTargets ts seen sink
  | Except.ok jobs :: ts, seen, sink =>
    runTargets ts (processRows jobs seen sink).1 (processRows jobs seen sink).2

/-- C8: a raising adapter is absorbed at the per-target boundary — the
run over any target list containing a raising target produces exactly
the seen set and sink of the run with that target deleted, so every
remaining target is processed normally and no other target's rows are
affected. -/
theorem target_failure_isolated (pre : List (Except String (List JobRow)))
    (e : String) (rest : List (Except String (List JobRow)))
    (seen : List String) (sink : List JobRow) :
    runTargets (pre ++ Except.error e :: rest) seen sink
      = runTargets (pre ++ rest) seen sink := by
  induction pre generalizing seen sink with
  | nil => rfl
  | cons t pre ih =>
    cases t with
    | error e2 => simpa [runTargets] using ih seen sink
    | ok jobs => simpa [runTargets] using ih _ _

/-- The states of the persisted seen-set file that `load_seen`
(utils.py lines 25-34) distinguishes: the file may be absent
(`os.path.exists` false), present but failing to open (`open` raises —
outside the `try`), present with content `json.load` rejects (caught),
present with JSON that is not a list, or present with a JSON list of
keys. -/
inductive SeenFile where
  | missing
  | unreadable
  | malformed
  | jsonNonList
  | jsonList (keys : List String)
deriving DecidableEq

/-- Model of `load_seen` (utils.py lines 25-34).  Only `json.load` and the
list-shape check sit inside the `try/except`; a failing `open` call
propagates, modelled as `Except.error`.  `set(data)` is `List.toFinset`. -/
def load_seen : SeenFile → Except String (Finset String)
  | SeenFile.missing => Except.ok ∅
  | SeenFile.unreadable => Except.error ("OSError from open")
  | SeenFile.malformed => Except.ok ∅
  | SeenFile.jsonNonList => Except.ok ∅
  | SeenFile.jsonList ks => Except.ok ks.toFinset

/-- Model of `save_seen` (utils.py lines 36-38): the file is rewritten with
`json.dump(sorted(list(seen)), ...)`, i.e. the set serialized as the
lexicographically sorted list of its keys. -/
def save_seen (seen : Finset String) : SeenFile :=
  SeenFile.jsonList (seen.sort (· ≤ ·))

/-- C3 counterexample: an existing but unreadable seen file makes
`load_seen` raise to its caller — it does not return a set at all. -/
theorem load_seen_unreadable_raises :
    ¬ ∃ s : Finset String, load_seen SeenFile.unreadable = Except.ok s := by
  rintro ⟨s, h⟩
  simp [load_seen] at h

/-- C3 amended: `load_seen` fails soft — returning the empty set — on a
missing file and on malformed or non-list JSON content, and returns the
key set on a well-formed file; but when the file exists and `open`
itself fails, the error propagates to the caller. -/
theorem load_seen_soft_failure :
    load_seen SeenFile.missing = Except.ok ∅
    ∧ load_seen SeenFile.malformed = Except.ok ∅
    ∧ load_seen SeenFile.jsonNonList = Except.ok ∅
    ∧ (∀ ks : List String, load_seen (SeenFile.jsonList ks) = Except.ok ks.toFinset)
    ∧ (load_seen SeenFile.unreadable).isOk = false := by
  exact ⟨rfl, rfl, rfl, fun ks => rfl, rfl⟩

/-- C6: persistence round-trips — loading after saving recovers exactly
the saved set; saving a freshly loaded file keeps the stored key set
unchanged, merely reordering it to canonical sorted form. -/
theorem seen_roundtrip (s : Finset String) (ks : List String) :
    load_seen (save_seen s) = Except.ok s
    ∧ load_seen (SeenFile.jsonList ks) = Except.ok ks.toFinset
    ∧ save_seen ks.toFinset = SeenFile.jsonList (ks.toFinset.sort (· ≤ ·))
    ∧ (ks.toFinset.sort (· ≤ ·)).toFinset = ks.toFinset
    ∧ List.Sorted (· ≤ ·) (ks.toFinset.sort (· ≤ ·)) := by
  refine ⟨?_, rfl, rfl, ?_, Finset.sort_sorted _ _⟩
  · simp only [load_seen, save_seen, Except.ok.injEq]
    ext a
    simp [Finset.mem_sort]
  · ext a
    simp [Finset.mem_sort]

/-- Python's `x or d` for an optional-string `x`: `None` and the empty
string are falsy and yield the default. -/
def pyOr (x : Option String) (d : String) : String :=
  match x with
  | none => d
  | some s => if s = "" then d else s

/-- A Python-falsy optional string: `None` or `""`. -/
def pyFalsy (x : Option String) : Prop :=
  x = none ∨ x = some ("")

/-- A UTC wall-clock instant already truncated to whole seconds
(`datetime.now(timezone.utc).replace(microsecond=0)`). -/
structure UTCTime where
  year : Nat
  month : Nat
  day : Nat
  hour : Nat
  minute : Nat
  second : Nat
deriving DecidableEq

def pad2 (n : Nat) : List Char :=
  [Nat.digitChar (n / 10 % 10), Nat.digitChar (n % 10)]

def pad4 (n : Nat) : List Char :=
  [Nat.digitChar (n / 1000 % 10), Nat.digitChar (n / 100 % 10),
   Nat.digitChar (n / 10 % 10), Nat.digitChar (n % 10)]

/-- Model of `normalized_now` (utils.py lines 57-58): the isoformat of the
microsecond-truncated aware UTC datetime with `+00:00` replaced by `Z`,
i.e. `YYYY-MM-DDTHH:MM:SSZ` with zero-padded fields. -/
def normalized_now (t : UTCTime) : String :=
  (pad4 t.year ++ '-' :: pad2 t.month ++ '-' :: pad2 t.day
    ++ 'T' :: pad2 t.hour ++ ':' :: pad2 t.minute ++ ':' :: pad2 t.second
    ++ ['Z']).asString

/-- Shape check for `YYYY-MM-DDTHH:MM:SSZ`: twenty characters, digits in
the numeric positions, the literal separators elsewhere. -/
def isoShape (s : String) : Bool :=
  match s.toList with
  | [y1, y2, y3, y4, d1, mo1, mo2, d2, dd1, dd2, t1, h1, h2, c1, mi1, mi2, c2, s1, s2, z] =>
    [y1, y2, y3, y4, mo1, mo2, dd1, dd2, h1, h2, mi1, mi2, s1, s2].all Char.isDigit
      && (d1 = '-' : Bool) && (d2 = '-' : Bool) && (t1 = 'T' : Bool)
      && (c1 = ':' : Bool) && (c2 = ':' : Bool) && (z = 'Z' : Bool)
  | _ => false

theorem digitChar_isDigit {n : Nat} (h : n < 10) : (Nat.digitChar n).isDigit = true := by
  interval_cases n <;> decide

theorem isoShape_normalized_now (t : UTCTime) : isoShape (normalized_now t) = true := by
  have h4 : ∀ m : Nat, (Nat.digitChar (m % 10)).isDigit = true :=
    fun m => digitChar_isDigit (Nat.mod_lt _ (by norm_num))
  simp only [normalized_now, isoShape, pad4, pad2, List.cons_append, List.nil_append,
    List.asString]
  simp [List.all_cons, h4]

/-- Membership in `_WHATWG_C0_CONTROL_OR_SPACE`: C0 control characters and the
space character, stripped from the front of the URL by `urlsplit`. -/
def isC0OrSpace (c : Char) : Bool :=
  c.toNat ≤ 32

/-- Membership in `_UNSAFE_URL_BYTES_TO_REMOVE`: tab, carriage return and newline,
removed everywhere in the URL by `urlsplit`. -/
def isUnsafeByte (c : Char) : Bool :=
  c == '\t' || c == '\r' || c == '\n'

/-- The WHATWG pre-cleaning of `urlsplit`:
`url.lstrip(_WHATWG_C0_CONTROL_OR_SPACE)` followed by removal of the
unsafe bytes. -/
def cleanUrl (l : List Char) : List Char :=
  (l.dropWhile isC0OrSpace).filter (fun c => !isUnsafeByte c)

/-- Scheme characters of `urllib.parse` :
letters, digits and `+`, `-`, `.`. -/
def schemeChar (c : Char) : Bool :=
  c.isAlpha || c.isDigit || c == '+' || c == '-' || c == '.'

/-- The scheme-acceptance check of CPython `urlsplit`: the part before
the first colon is nonempty, starts with an ASCII letter, and consists
of scheme characters only. -/
def validScheme (pre : List Char) : Bool :=
  match pre with
  | [] => false
  | c :: _ => c.isAlpha && pre.all schemeChar

/-- Scheme splitting of `urlsplit`: on `i = url.find(':')` with `i > 0`
and a valid scheme prefix, return the lowercased scheme and the
remainder; otherwise no scheme is recognised. -/
def splitScheme (l : List Char) : Option (List Char × List Char) :=
  match l.span (fun c => c ≠ ':') with
  | (_, []) => none
  | (pre, _ :: rest) =>
    if validScheme pre then some (pre.map pyLower, rest) else none

/-- Characters terminating the netloc in `_splitnetloc`. -/
def netlocBreak (c : Char) : Bool :=
  c == '/' || c == '?' || c == '#'

/-- Model of `_splitnetloc(url, 2)`: the netloc runs to the first `/`, `?` or `#`;
the delimiter stays with the remainder. -/
def splitNetloc (l : List Char) : List Char × List Char :=
  l.span (fun c => !netlocBreak c)

/-- The `Invalid IPv6 URL` check of `urlsplit`: a bracket present
without its partner. -/
def bracketsBad (n : List Char) : Bool :=
  (('[' ∈ n : Bool) && !(']' ∈ n : Bool)) || ((']' ∈ n : Bool) && !('[' ∈ n : Bool))

/-- Model of `url.split(ch, 1)[0]` guarded by `if ch in url` — everything before
the first occurrence of `ch` (the whole list when absent). -/
def cutAt (ch : Char) (l : List Char) : List Char :=
  l.takeWhile (fun c => c ≠ ch)

/-- The path segment after the last `/` (the whole path when it has no
slash). -/
def lastSeg (p : List Char) : List Char :=
  (p.reverse.takeWhile (fun c => c ≠ '/')).reverse

/-- The path up to and including its last `/` (empty when it has no
slash). -/
def withoutLastSeg (p : List Char) : List Char :=
  (p.reverse.dropWhile (fun c => c ≠ '/')).reverse

/-- Model of `_splitparams` as invoked by `urlparse`: when the path contains `;`,
drop everything from the first `;` of the last `/`-separated segment on;
a `;` confined to earlier segments is kept. -/
def stripParams (p : List Char) : List Char :=
  if ';' ∈ p then
    if '/' ∈ p then
      if ';' ∈ lastSeg p then withoutLastSeg p ++ (lastSeg p).takeWhile (fun c => c ≠ ';')
      else p
    else p.takeWhile (fun c => c ≠ ';')
  else p

/-- The list `urllib.parse.uses_params` (CPython 3.11): the schemes — including
the empty scheme — whose paths are split at the params `;`. -/
def uses_params : List String :=
  ["", "ftp", "hdl", "prospero", "http", "imap", "https", "shttp", "rtsp",
   "rtsps", "rtspu", "sip", "sips", "mms", "sftp", "tel"]

/-- The list `urllib.parse.uses_netloc` (CPython 3.11): the schemes for which
`urlunsplit` re-emits a `//` even with an empty netloc. -/
def uses_netloc : List String :=
  ["", "ftp", "http", "gopher", "nntp", "telnet", "imap", "wais", "file",
   "mms", "https", "shttp", "snews", "prospero", "rtsp", "rtsps", "rtspu",
   "rsync", "svn", "svn+ssh", "sftp", "nfs", "git", "git+ssh", "ws", "wss"]

/-- CPython 3.11 `urlparse` reduced to the three components
`_normalize_url` keeps: scheme (lowercased), netloc, and path with the
params split off when the scheme `uses_params`; the query and fragment
are split off and dropped.  The raising path modelled is the
unbalanced-bracket `ValueError` (the further `ValueError`s of
`_check_bracketed_host` on balanced brackets and of `_checknetloc` on
non-ASCII netlocs, both of which `_normalize_url` also turns into the
identity fallback, are outside the modelled input space). -/
def splitSchemeOr (l : List Char) : List Char × List Char :=
  match splitScheme l with
  | some (s, r) => (s, r)
  | none => ([], l)

/-- The params gate of `urlparse`: `if scheme in uses_params and ';' in
url` the params are split off, otherwise the path is kept whole. -/
def pathParams (s p0 : List Char) : List Char :=
  if s.asString ∈ uses_params then stripParams p0 else p0

/-- The netloc/fragment/query/params phase of `urlparse` on the
remainder after scheme splitting (`url[:2] == '//'` selects the netloc
branch). -/
def parseRest (s rest1 : List Char) : Except String (List Char × List Char × List Char) :=
  if rest1.take 2 = ['/', '/'] then
    if bracketsBad (splitNetloc (rest1.drop 2)).1 then Except.error ("Invalid IPv6 URL")
    else Except.ok (s, (splitNetloc (rest1.drop 2)).1,
      pathParams s (cutAt '?' (cutAt '#' (splitNetloc (rest1.drop 2)).2)))
  else Except.ok (s, [], pathParams s (cutAt '?' (cutAt '#' rest1)))

def urlparse3 (l0 : List Char) : Except String (List Char × List Char × List Char) :=
  parseRest (splitSchemeOr (cleanUrl l0)).1 (splitSchemeOr (cleanUrl l0)).2

/-- CPython 3.11 `urlunparse((scheme, netloc, path, "", "", ""))`: empty
params, query and fragment contribute nothing; `//` plus the netloc is
emitted when the netloc is nonempty, or when the scheme uses a netloc
and the path does not already begin with `//`; the scheme is prefixed
with its colon when present. -/
def netlocPart (s n p : List Char) : List Char :=
  if n ≠ [] ∨ (s ≠ [] ∧ s.asString ∈ uses_netloc ∧ p.take 2 ≠ ['/', '/']) then
    '/' :: '/' :: (n ++ (if p ≠ [] ∧ p.head? ≠ some '/' then '/' :: p else p))
  else p

def urlunparse0 (s n p : List Char) : List Char :=
  if s ≠ [] then s ++ ':' :: netlocPart s n p else netlocPart s n p

/-- Model of `_normalize_url` (utils.py lines 16-23): empty input maps to `""`;
otherwise rebuild the URL from scheme, netloc and path, and fall back to
the original string when `urlparse` raises. -/
def _normalize_url (u : String) : String :=
  if u = "" then ""
  else
    match urlparse3 u.toList with
    | Except.error _ => u
    | Except.ok (s, n, p) => (urlunparse0 s n p).asString

/-- Model of `mk_row` (utils.py lines 60-71): heterogeneous adapter inputs are
coerced with `or ""` (and `str(...)` on the id, identity on strings),
the url is normalized at construction, `detected_on_iso` is stamped from
the current UTC time, and `matched_on` defaults to
`"title_or_description"`. -/
def mk_row (company platform : String)
    (title location job_id url posted_at matched_on : Option String)
    (t : UTCTime) : JobRow :=
  { company := company
    platform := platform
    title := pyOr title ("")
    location := pyOr location ("")
    job_id := pyOr job_id ("")
    url := _normalize_url (pyOr url (""))
    posted_at_iso := pyOr posted_at ("")
    detected_on_iso := normalized_now t
    matched_on := pyOr matched_on ("title_or_description") }

/-- C7: rows built by `mk_row` never contain nulls — every missing
(None or empty) title, location, job_id or posted_at coerces to the
empty string, the stored url is the normalized one, and
`detected_on_iso` is stamped with the second-truncated current UTC
instant in `YYYY-MM-DDTHH:MM:SSZ` shape. -/
theorem mk_row_no_nulls (company platform : String)
    (title location job_id url posted_at matched_on : Option String) (t : UTCTime)
    (h1 : pyFalsy title) (h2 : pyFalsy location) (h3 : pyFalsy job_id)
    (h4 : pyFalsy posted_at) :
    (mk_row company platform title location job_id url posted_at matched_on t).title = ""
    ∧ (mk_row company platform title location job_id url posted_at matched_on t).location = ""
    ∧ (mk_row company platform title location job_id url posted_at matched_on t).job_id = ""
    ∧ (mk_row company platform title location job_id url posted_at matched_on t).posted_at_iso = ""
    ∧ (mk_row company platform title location job_id url posted_at matched_on t).url
        = _normalize_url (pyOr url (""))
    ∧ (mk_row company platform title location job_id url posted_at matched_on t).detected_on_iso
        = normalized_now t
    ∧ isoShape ((mk_row company platform title location job_id url posted_at matched_on t).detected_on_iso)
        = true := by
  have hcoerce : ∀ x : Option String, pyFalsy x → pyOr x ("") = "" := by
    rintro x (rfl | rfl) <;> rfl
  refine ⟨hcoerce _ h1, hcoerce _ h2, hcoerce _ h3, hcoerce _ h4, rfl, rfl, ?_⟩
  exact isoShape_normalized_now t

/-- Witness for C7 at concrete inputs: all optional fields absent, a
concrete valid timestamp. -/
theorem mk_row_no_nulls_witness :
    (mk_row ("acme") ("greenhouse") none none none (some ("https://x.com/j?u=1")) none none
        ⟨2026, 1, 2, 3, 4, 5⟩).title = ""
    ∧ (mk_row ("acme") ("greenhouse") none none none (some ("https://x.com/j?u=1")) none none
        ⟨2026, 1, 2, 3, 4, 5⟩).detected_on_iso = normalized_now ⟨2026, 1, 2, 3, 4, 5⟩ := by
  have h := mk_row_no_nulls ("acme") ("greenhouse") none none none (some ("https://x.com/j?u=1"))
    none none ⟨2026, 1, 2, 3, 4, 5⟩ (Or.inl rfl) (Or.inl rfl) (Or.inl rfl) (Or.inl rfl)
  exact ⟨h.1, h.2.2.2.2.2.1⟩

/-- The fixed CSV header schema of `utils.py` (lines 11-14). -/
def CSV_HEADERS : List String :=
  ["company", "platform", "title", "location", "job_id",
   "url", "posted_at_iso", "detected_on_iso", "matched_on"]

/-- Model of `row.get(h, "")` on the nine-key row dict. -/
def rowGet (r : JobRow) (h : String) : String :=
  if h = "company" then r.company
  else if h = "platform" then r.platform
  else if h = "title" then r.title
  else if h = "location" then r.location
  else if h = "job_id" then r.job_id
  else if h = "url" then r.url
  else if h = "posted_at_iso" then r.posted_at_iso
  else if h = "detected_on_iso" then r.detected_on_iso
  else if h = "matched_on" then r.matched_on
  else ""

/-- Model of `append_csv` (utils.py lines 46-52): `row = dict(row)` rebinds the
local name to a copy, the copy's url is normalized, and one record —
the copy's values in `CSV_HEADERS` order — is appended to the sink.
The pair returned is (the sink after the call, the caller's row object
after the call); the caller's dict is never touched, which the copy in
the model makes explicit.  (`ensure_csv`'s header bootstrap writes no
data record and is not modelled.) -/
def append_csv (sink : List (List String)) (row : JobRow) : List (List String) × JobRow :=
  let local_row := { row with url := _normalize_url (rowGet row ("url")) }
  (sink ++ [CSV_HEADERS.map (rowGet local_row)], row)

/-- C9: `append_csv` appends exactly one record per call, that record is
the row's fields in header order with the url normalized at write time,
the caller's row is returned unchanged, and therefore the identity key
of the row after the call equals the key before it. -/
theorem append_csv_frame (sink : List (List String)) (row : JobRow) :
    (append_csv sink row).2 = row
    ∧ (append_csv sink row).1.length = sink.length + 1
    ∧ (append_csv sink row).1
        = sink ++ [[row.company, row.platform, row.title, row.location, row.job_id,
            _normalize_url row.url, row.posted_at_iso, row.detected_on_iso, row.matched_on]]
    ∧ rowKey (append_csv sink row).2 = rowKey row := by
  refine ⟨rfl, ?_, rfl, rfl⟩
  simp [append_csv]

/-- The Unicode word characters of `re`'s `\b` for `str` patterns
(CPython 3.11, Unicode 14.0): the contiguous code-point ranges on
which `\w` matches — Unicode alphanumerics plus the underscore —
enumerated from the interpreter's own `re` module. -/
def wordRanges : List (Nat × Nat) :=
  [(48, 57), (65, 90), (95, 95), (97, 122), (170, 170), (178, 179),
   (181, 181), (185, 186), (188, 190), (192, 214), (216, 246), (248, 705),
   (710, 721), (736, 740), (748, 748), (750, 750), (880, 884), (886, 887),
   (890, 893), (895, 895), (902, 902), (904, 906), (908, 908), (910, 929),
   (931, 1013), (1015, 1153), (1162, 1327), (1329, 1366), (1369, 1369), (1376, 1416),
   (1488, 1514), (1519, 1522), (1568, 1610), (1632, 1641), (1646, 1647), (1649, 1747),
   (1749, 1749), (1765, 1766), (1774, 1788), (1791, 1791), (1808, 1808), (1810, 1839),
   (1869, 1957), (1969, 1969), (1984, 2026), (2036, 2037), (2042, 2042), (2048, 2069),
   (2074, 2074), (2084, 2084), (2088, 2088), (2112, 2136), (2144, 2154), (2160, 2183),
   (2185, 2190), (2208, 2249), (2308, 2361), (2365, 2365), (2384, 2384), (2392, 2401),
   (2406, 2415), (2417, 2432), (2437, 2444), (2447, 2448), (2451, 2472), (2474, 2480),
   (2482, 2482), (2486, 2489), (2493, 2493), (2510, 2510), (2524, 2525), (2527, 2529),
   (2534, 2545), (2548, 2553), (2556, 2556), (2565, 2570), (2575, 2576), (2579, 2600),
   (2602, 2608), (2610, 2611), (2613, 2614), (2616, 2617), (2649, 2652), (2654, 2654),
   (2662, 2671), (2674, 2676), (2693, 2701), (2703, 2705), (2707, 2728), (2730, 2736),
   (2738, 2739), (2741, 2745), (2749, 2749), (2768, 2768), (2784, 2785), (2790, 2799),
   (2809, 2809), (2821, 2828), (2831, 2832), (2835, 2856), (2858, 2864), (2866, 2867),
   (2869, 2873), (2877, 2877), (2908, 2909), (2911, 2913), (2918, 2927), (2929, 2935),
   (2947, 2947), (2949, 2954), (2958, 2960), (2962, 2965), (2969, 2970), (2972, 2972),
   (2974, 2975), (2979, 2980), (2984, 2986), (2990, 3001), (3024, 3024), (3046, 3058),
   (3077, 3084), (3086, 3088), (3090, 3112), (3114, 3129), (3133, 3133), (3160, 3162),
   (3165, 3165), (3168, 3169), (3174, 3183), (3192, 3198), (3200, 3200), (3205, 3212),
   (3214, 3216), (3218, 3240), (3242, 3251), (3253, 3257), (3261, 3261), (3293, 3294),
   (3296, 3297), (3302, 3311), (3313, 3314), (3332, 3340), (3342, 3344), (3346, 3386),
   (3389, 3389), (3406, 3406), (3412, 3414), (3416, 3425), (3430, 3448), (3450, 3455),
   (3461, 3478), (3482, 3505), (3507, 3515), (3517, 3517), (3520, 3526), (3558, 3567),
   (3585, 3632), (3634, 3635), (3648, 3654), (3664, 3673), (3713, 3714), (3716, 3716),
   (3718, 3722), (3724, 3747), (3749, 3749), (3751, 3760), (3762, 3763), (3773, 3773),
   (3776, 3780), (3782, 3782), (3792, 3801), (3804, 3807), (3840, 3840), (3872, 3891),
   (3904, 3911), (3913, 3948), (3976, 3980), (4096, 4138), (4159, 4169), (4176, 4181),
   (4186, 4189), (4193, 4193), (4197, 4198), (4206, 4208), (4213, 4225), (4238, 4238),
   (4240, 4249), (4256, 4293), (4295, 4295), (4301, 4301), (4304, 4346), (4348, 4680),
   (4682, 4685), (4688, 4694), (4696, 4696), (4698, 4701), (4704, 4744), (4746, 4749),
   (4752, 4784), (4786, 4789), (4792, 4798), (4800, 4800), (4802, 4805), (4808, 4822),
   (4824, 4880), (4882, 4885), (4888, 4954), (4969, 4988), (4992, 5007), (5024, 5109),
   (5112, 5117), (5121, 5740), (5743, 5759), (5761, 5786), (5792, 5866), (5870, 5880),
   (5888, 5905), (5919, 5937), (5952, 5969), (5984, 5996), (5998, 6000), (6016, 6067),
   (6103, 6103), (6108, 6108), (6112, 6121), (6128, 6137), (6160, 6169), (6176, 6264),
   (6272, 6276), (6279, 6312), (6314, 6314), (6320, 6389), (6400, 6430), (6470, 6509),
   (6512, 6516), (6528, 6571), (6576, 6601), (6608, 6618), (6656, 6678), (6688, 6740),
   (6784, 6793), (6800, 6809), (6823, 6823), (6917, 6963), (6981, 6988), (6992, 7001),
   (7043, 7072), (7086, 7141), (7168, 7203), (7232, 7241), (7245, 7293), (7296, 7304),
   (7312, 7354), (7357, 7359), (7401, 7404), (7406, 7411), (7413, 7414), (7418, 7418),
   (7424, 7615), (7680, 7957), (7960, 7965), (7968, 8005), (8008, 8013), (8016, 8023),
   (8025, 8025), (8027, 8027), (8029, 8029), (8031, 8061), (8064, 8116), (8118, 8124),
   (8126, 8126), (8130, 8132), (8134, 8140), (8144, 8147), (8150, 8155), (8160, 8172),
   (8178, 8180), (8182, 8188), (8304, 8305), (8308, 8313), (8319, 8329), (8336, 8348),
   (8450, 8450), (8455, 8455), (8458, 8467), (8469, 8469), (8473, 8477), (8484, 8484),
   (8486, 8486), (8488, 8488), (8490, 8493), (8495, 8505), (8508, 8511), (8517, 8521),
   (8526, 8526), (8528, 8585), (9312, 9371), (9450, 9471), (10102, 10131), (11264, 11492),
   (11499, 11502), (11506, 11507), (11517, 11517), (11520, 11557), (11559, 11559), (11565, 11565),
   (11568, 11623), (11631, 11631), (11648, 11670), (11680, 11686), (11688, 11694), (11696, 11702),
   (11704, 11710), (11712, 11718), (11720, 11726), (11728, 11734), (11736, 11742), (11823, 11823),
   (12293, 12295), (12321, 12329), (12337, 12341), (12344, 12348), (12353, 12438), (12445, 12447),
   (12449, 12538), (12540, 12543), (12549, 12591), (12593, 12686), (12690, 12693), (12704, 12735),
   (12784, 12799), (12832, 12841), (12872, 12879), (12881, 12895), (12928, 12937), (12977, 12991),
   (13312, 19903), (19968, 42124), (42192, 42237), (42240, 42508), (42512, 42539), (42560, 42606),
   (42623, 42653), (42656, 42735), (42775, 42783), (42786, 42888), (42891, 42954), (42960, 42961),
   (42963, 42963), (42965, 42969), (42994, 43009), (43011, 43013), (43015, 43018), (43020, 43042),
   (43056, 43061), (43072, 43123), (43138, 43187), (43216, 43225), (43250, 43255), (43259, 43259),
   (43261, 43262), (43264, 43301), (43312, 43334), (43360, 43388), (43396, 43442), (43471, 43481),
   (43488, 43492), (43494, 43518), (43520, 43560), (43584, 43586), (43588, 43595), (43600, 43609),
   (43616, 43638), (43642, 43642), (43646, 43695), (43697, 43697), (43701, 43702), (43705, 43709),
   (43712, 43712), (43714, 43714), (43739, 43741), (43744, 43754), (43762, 43764), (43777, 43782),
   (43785, 43790), (43793, 43798), (43808, 43814), (43816, 43822), (43824, 43866), (43868, 43881),
   (43888, 44002), (44016, 44025), (44032, 55203), (55216, 55238), (55243, 55291), (63744, 64109),
   (64112, 64217), (64256, 64262), (64275, 64279), (64285, 64285), (64287, 64296), (64298, 64310),
   (64312, 64316), (64318, 64318), (64320, 64321), (64323, 64324), (64326, 64433), (64467, 64829),
   (64848, 64911), (64914, 64967), (65008, 65019), (65136, 65140), (65142, 65276), (65296, 65305),
   (65313, 65338), (65345, 65370), (65382, 65470), (65474, 65479), (65482, 65487), (65490, 65495),
   (65498, 65500), (65536, 65547), (65549, 65574), (65576, 65594), (65596, 65597), (65599, 65613),
   (65616, 65629), (65664, 65786), (65799, 65843), (65856, 65912), (65930, 65931), (66176, 66204),
   (66208, 66256), (66273, 66299), (66304, 66339), (66349, 66378), (66384, 66421), (66432, 66461),
   (66464, 66499), (66504, 66511), (66513, 66517), (66560, 66717), (66720, 66729), (66736, 66771),
   (66776, 66811), (66816, 66855), (66864, 66915), (66928, 66938), (66940, 66954), (66956, 66962),
   (66964, 66965), (66967, 66977), (66979, 66993), (66995, 67001), (67003, 67004), (67072, 67382),
   (67392, 67413), (67424, 67431), (67456, 67461), (67463, 67504), (67506, 67514), (67584, 67589),
   (67592, 67592), (67594, 67637), (67639, 67640), (67644, 67644), (67647, 67669), (67672, 67702),
   (67705, 67742), (67751, 67759), (67808, 67826), (67828, 67829), (67835, 67867), (67872, 67897),
   (67968, 68023), (68028, 68047), (68050, 68096), (68112, 68115), (68117, 68119), (68121, 68149),
   (68160, 68168), (68192, 68222), (68224, 68255), (68288, 68295), (68297, 68324), (68331, 68335),
   (68352, 68405), (68416, 68437), (68440, 68466), (68472, 68497), (68521, 68527), (68608, 68680),
   (68736, 68786), (68800, 68850), (68858, 68899), (68912, 68921), (69216, 69246), (69248, 69289),
   (69296, 69297), (69376, 69415), (69424, 69445), (69457, 69460), (69488, 69505), (69552, 69579),
   (69600, 69622), (69635, 69687), (69714, 69743), (69745, 69746), (69749, 69749), (69763, 69807),
   (69840, 69864), (69872, 69881), (69891, 69926), (69942, 69951), (69956, 69956), (69959, 69959),
   (69968, 70002), (70006, 70006), (70019, 70066), (70081, 70084), (70096, 70106), (70108, 70108),
   (70113, 70132), (70144, 70161), (70163, 70187), (70272, 70278), (70280, 70280), (70282, 70285),
   (70287, 70301), (70303, 70312), (70320, 70366), (70384, 70393), (70405, 70412), (70415, 70416),
   (70419, 70440), (70442, 70448), (70450, 70451), (70453, 70457), (70461, 70461), (70480, 70480),
   (70493, 70497), (70656, 70708), (70727, 70730), (70736, 70745), (70751, 70753), (70784, 70831),
   (70852, 70853), (70855, 70855), (70864, 70873), (71040, 71086), (71128, 71131), (71168, 71215),
   (71236, 71236), (71248, 71257), (71296, 71338), (71352, 71352), (71360, 71369), (71424, 71450),
   (71472, 71483), (71488, 71494), (71680, 71723), (71840, 71922), (71935, 71942), (71945, 71945),
   (71948, 71955), (71957, 71958), (71960, 71983), (71999, 71999), (72001, 72001), (72016, 72025),
   (72096, 72103), (72106, 72144), (72161, 72161), (72163, 72163), (72192, 72192), (72203, 72242),
   (72250, 72250), (72272, 72272), (72284, 72329), (72349, 72349), (72368, 72440), (72704, 72712),
   (72714, 72750), (72768, 72768), (72784, 72812), (72818, 72847), (72960, 72966), (72968, 72969),
   (72971, 73008), (73030, 73030), (73040, 73049), (73056, 73061), (73063, 73064), (73066, 73097),
   (73112, 73112), (73120, 73129), (73440, 73458), (73648, 73648), (73664, 73684), (73728, 74649),
   (74752, 74862), (74880, 75075), (77712, 77808), (77824, 78894), (82944, 83526), (92160, 92728),
   (92736, 92766), (92768, 92777), (92784, 92862), (92864, 92873), (92880, 92909), (92928, 92975),
   (92992, 92995), (93008, 93017), (93019, 93025), (93027, 93047), (93053, 93071), (93760, 93846),
   (93952, 94026), (94032, 94032), (94099, 94111), (94176, 94177), (94179, 94179), (94208, 100343),
   (100352, 101589), (101632, 101640), (110576, 110579), (110581, 110587), (110589, 110590), (110592, 110882),
   (110928, 110930), (110948, 110951), (110960, 111355), (113664, 113770), (113776, 113788), (113792, 113800),
   (113808, 113817), (119520, 119539), (119648, 119672), (119808, 119892), (119894, 119964), (119966, 119967),
   (119970, 119970), (119973, 119974), (119977, 119980), (119982, 119993), (119995, 119995), (119997, 120003),
   (120005, 120069), (120071, 120074), (120077, 120084), (120086, 120092), (120094, 120121), (120123, 120126),
   (120128, 120132), (120134, 120134), (120138, 120144), (120146, 120485), (120488, 120512), (120514, 120538),
   (120540, 120570), (120572, 120596), (120598, 120628), (120630, 120654), (120656, 120686), (120688, 120712),
   (120714, 120744), (120746, 120770), (120772, 120779), (120782, 120831), (122624, 122654), (123136, 123180),
   (123191, 123197), (123200, 123209), (123214, 123214), (123536, 123565), (123584, 123627), (123632, 123641),
   (124896, 124902), (124904, 124907), (124909, 124910), (124912, 124926), (124928, 125124), (125127, 125135),
   (125184, 125251), (125259, 125259), (125264, 125273), (126065, 126123), (126125, 126127), (126129, 126132),
   (126209, 126253), (126255, 126269), (126464, 126467), (126469, 126495), (126497, 126498), (126500, 126500),
   (126503, 126503), (126505, 126514), (126516, 126519), (126521, 126521), (126523, 126523), (126530, 126530),
   (126535, 126535), (126537, 126537), (126539, 126539), (126541, 126543), (126545, 126546), (126548, 126548),
   (126551, 126551), (126553, 126553), (126555, 126555), (126557, 126557), (126559, 126559), (126561, 126562),
   (126564, 126564), (126567, 126570), (126572, 126578), (126580, 126583), (126585, 126588), (126590, 126590),
   (126592, 126601), (126603, 126619), (126625, 126627), (126629, 126633), (126635, 126651), (127232, 127244),
   (130032, 130041), (131072, 173791), (173824, 177976), (177984, 178205), (178208, 183969), (183984, 191456),
   (194560, 195101), (196608, 201546)]

/-- Word-character test of `\b`: membership in `wordRanges`. -/
def isWordChar (c : Char) : Bool :=
  wordRanges.any (fun r => decide (r.1 ≤ c.toNat) && decide (c.toNat ≤ r.2))

/-- Characters matching the pattern literal `m` under `re.IGNORECASE`
on `str` (enumerated from CPython 3.11's `re`). -/
def isM (c : Char) : Bool :=
  c == 'M' || c == 'm'

/-- Characters matching the pattern literal `u` under `re.IGNORECASE`. -/
def isU (c : Char) : Bool :=
  c == 'U' || c == 'u'

/-- Characters matching the pattern literal `s` under `re.IGNORECASE`:
the ASCII cases and LATIN SMALL LETTER LONG S. -/
def isS (c : Char) : Bool :=
  c == 'S' || c == 's' || c == 'ſ'

/-- Characters matching the pattern literal `i` under `re.IGNORECASE`:
the ASCII cases, LATIN CAPITAL LETTER I WITH DOT ABOVE and LATIN SMALL
LETTER DOTLESS I. -/
def isI (c : Char) : Bool :=
  c == 'I' || c == 'i' || c == 'İ' || c == 'ı'

/-- Characters matching the pattern literal `c` under `re.IGNORECASE`. -/
def isC (c : Char) : Bool :=
  c == 'C' || c == 'c'

/-- Whether a five-character list spells `music` up to the
`re.IGNORECASE` equivalence of each pattern letter. -/
def musicCI : List Char → Bool
  | [c1, c2, c3, c4, c5] => isM c1 && isU c2 && isS c3 && isI c4 && isC c5
  | _ => false

/-- Case-insensitive check that the scan position starts with the five
pattern literals of `music`. -/
def startsWithMusicCI : List Char → Bool
  | c1 :: c2 :: c3 :: c4 :: c5 :: _ => isM c1 && isU c2 && isS c3 && isI c4 && isC c5
  | _ => false

/-- The boundary `\b` before the match: start of string or a non-word character. -/
def boundaryBefore : Option Char → Bool
  | none => true
  | some c => !isWordChar c

/-- The boundary `\b` after the match: end of string or a non-word character. -/
def boundaryAfter : List Char → Bool
  | [] => true
  | c :: _ => !isWordChar c

/-- Model of `MUSIC_PATTERN.search`: scan left to right for an occurrence of
`music` (case-insensitive) flanked by word boundaries, carrying the
previous character for the left boundary. -/
def searchMusic : Option Char → List Char → Bool
  | _, [] => false
  | prev, c :: rest =>
    (boundaryBefore prev && startsWithMusicCI (c :: rest)
      && boundaryAfter ((c :: rest).drop 5))
    || searchMusic (some c) rest

/-- Model of `job_matches_music` (utils.py lines 54-55):
`bool(MUSIC_PATTERN.search(text or ""))`, with `None` modelled as the
absent option. -/
def job_matches_music (text : Option String) : Bool :=
  searchMusic none (text.getD ("")).toList

/-- The left-boundary condition contributed by a prefix `a`: empty, or
ending in a non-word character. -/
def lastBoundary (a : List Char) : Bool :=
  match a.getLast? with
  | none => true
  | some c => !isWordChar c

theorem searchMusic_cons (prev : Option Char) (c : Char) (rest : List Char) :
    searchMusic prev (c :: rest)
      = ((boundaryBefore prev && startsWithMusicCI (c :: rest)
          && boundaryAfter ((c :: rest).drop 5))
        || searchMusic (some c) rest) := rfl

theorem searchMusic_head_true {prev : Option Char} {l : List Char}
    (hne : l ≠ []) (h1 : boundaryBefore prev = true)
    (h2 : startsWithMusicCI l = true) (h3 : boundaryAfter (l.drop 5) = true) :
    searchMusic prev l = true := by
  cases l with
  | nil => exact absurd rfl hne
  | cons c rest =>
    rw [searchMusic_cons, h1, h2, h3]
    simp

theorem musicCI_inv {m : List Char} (h : musicCI m = true) :
    ∃ c1 c2 c3 c4 c5, m = [c1, c2, c3, c4, c5] ∧ isM c1 = true ∧ isU c2 = true
      ∧ isS c3 = true ∧ isI c4 = true ∧ isC c5 = true := by
  match m, h with
  | [c1, c2, c3, c4, c5], h =>
    simp only [musicCI, Bool.and_eq_true] at h
    exact ⟨c1, c2, c3, c4, c5, rfl, h.1.1.1.1, h.1.1.1.2, h.1.1.2, h.1.2, h.2⟩
  | [], h => exact Bool.noConfusion h
  | [c1], h => exact Bool.noConfusion h
  | [c1, c2], h => exact Bool.noConfusion h
  | [c1, c2, c3], h => exact Bool.noConfusion h
  | [c1, c2, c3, c4], h => exact Bool.noConfusion h
  | c1 :: c2 :: c3 :: c4 :: c5 :: c6 :: rest, h => exact Bool.noConfusion h

theorem searchMusic_found (a : List Char) :
    ∀ (prev : Option Char) (m b : List Char),
      musicCI m = true →
      (a = [] → boundaryBefore prev = true) →
      lastBoundary a = true →
      boundaryAfter b = true →
      searchMusic prev (a ++ (m ++ b)) = true := by
  induction a with
  | nil =>
    intro prev m b hm hprev _ hb
    obtain ⟨c1, c2, c3, c4, c5, rfl, h1, h2, h3, h4, h5⟩ := musicCI_inv hm
    rw [List.nil_append]
    refine searchMusic_head_true (by simp) (hprev rfl) ?_ ?_
    · show (isM c1 && isU c2 && isS c3 && isI c4 && isC c5) = true
      rw [h1, h2, h3, h4, h5]
      rfl
    · show boundaryAfter b = true
      exact hb
  | cons c a ih =>
    intro prev m b hm _ hlast hb
    rw [List.cons_append, searchMusic_cons]
    have hrec : searchMusic (some c) (a ++ (m ++ b)) = true := by
      refine ih (some c) m b hm ?_ ?_ hb
      · intro ha
        subst ha
        simpa [lastBoundary, boundaryBefore] using hlast
      · cases a with
        | nil => rfl
        | cons d a2 => simpa [lastBoundary, List.getLast?_cons_cons] using hlast
    rw [hrec]
    simp

set_option maxRecDepth 20000 in
/-- C4: the matcher is a whole-word case-insensitive test for `music`
under the Unicode semantics of `re` on `str` — any text consisting of
the five pattern letters in any of their `IGNORECASE` equivalents,
flanked by Unicode word boundaries, matches (including `muſic`);
`musically inclined` and `émusic` (the term inside a larger Unicode
word) do not; the empty string and None-equivalent input do not. -/
theorem job_matches_music_word_boundary :
    (∀ (a m b : List Char),
        musicCI m = true →
        lastBoundary a = true →
        boundaryAfter b = true →
        job_matches_music (some (a ++ (m ++ b)).asString) = true)
    ∧ job_matches_music (some ("Music Director")) = true
    ∧ job_matches_music (some ("a music box")) = true
    ∧ job_matches_music (some ("muſic")) = true
    ∧ job_matches_music (some ("musically inclined")) = false
    ∧ job_matches_music (some ("émusic")) = false
    ∧ job_matches_music (some ("")) = false
    ∧ job_matches_music none = false := by
  refine ⟨?_, by decide, by decide, by decide, by decide, by decide, rfl, rfl⟩
  intro a m b hm ha hb
  have : ((a ++ (m ++ b)).asString).toList = a ++ (m ++ b) := rfl
  simp only [job_matches_music, Option.getD_some, this]
  exact searchMusic_found a none m b hm (fun _ => rfl) ha hb

set_option maxRecDepth 20000 in
/-- Witness for C4's general clause at a concrete split: `X MUSIC.` -/
theorem job_matches_music_word_boundary_witness :
    job_matches_music (some (['X', ' '] ++ (['M', 'U', 'S', 'I', 'C'] ++ ['.'])).asString)
      = true :=
  job_matches_music_word_boundary.1 ['X', ' '] ['M', 'U', 'S', 'I', 'C'] ['.']
    (by decide) (by decide) (by decide)

theorem char_le_iff {a b : Char} : a ≤ b ↔ a.toNat ≤ b.toNat :=
  ⟨fun h => Char.le_def.1 h, fun h => Char.le_def.2 h⟩

theorem char_toNat_ofNat {n : Nat} (h : n < 55296) : (Char.ofNat n).toNat = n := by
  have hv : n.isValidChar := Or.inl h
  simp only [Char.ofNat, hv, Char.toNat, Char.ofNatAux, dif_pos]
  rfl

theorem char_eq_of_toNat {c d : Char} (h : c.toNat = d.toNat) : c = d := by
  have h1 := Char.ofNat_toNat c
  rw [h, Char.ofNat_toNat] at h1
  exact h1.symm

theorem isUpper_toNat {c : Char} (h : c.isUpper = true) : 65 ≤ c.toNat ∧ c.toNat ≤ 90 := by
  simp only [Char.isUpper, Bool.and_eq_true, decide_eq_true_eq] at h
  exact ⟨h.1, h.2⟩

theorem isLower_toNat {c : Char} (h : c.isLower = true) : 97 ≤ c.toNat ∧ c.toNat ≤ 122 := by
  simp only [Char.isLower, Bool.and_eq_true, decide_eq_true_eq] at h
  exact ⟨h.1, h.2⟩

theorem isDigit_toNat {c : Char} (h : c.isDigit = true) : 48 ≤ c.toNat ∧ c.toNat ≤ 57 := by
  simp only [Char.isDigit, Bool.and_eq_true, decide_eq_true_eq] at h
  exact ⟨h.1, h.2⟩

theorem isLower_of_toNat {c : Char} (h1 : 97 ≤ c.toNat) (h2 : c.toNat ≤ 122) :
    c.isLower = true := by
  simp only [Char.isLower, Bool.and_eq_true, decide_eq_true_eq]
  exact ⟨h1, h2⟩

theorem pyLower_toNat_upper {c : Char} (h1 : 65 ≤ c.toNat) (h2 : c.toNat ≤ 90) :
    (pyLower c).toNat = c.toNat + 32 := by
  have hle : 'A' ≤ c ∧ c ≤ 'Z' :=
    ⟨char_le_iff.2 (by simpa using h1), char_le_iff.2 (by simpa using h2)⟩
  simp only [pyLower, if_pos hle]
  exact char_toNat_ofNat (by omega)

theorem pyLower_of_not_upper {c : Char} (h : ¬(65 ≤ c.toNat ∧ c.toNat ≤ 90)) :
    pyLower c = c := by
  have hnot : ¬('A' ≤ c ∧ c ≤ 'Z') := by
    rintro ⟨ha, hb⟩
    exact h ⟨by simpa using char_le_iff.1 ha, by simpa using char_le_iff.1 hb⟩
  simp [pyLower, hnot]

theorem pyLower_isAlpha {c : Char} (h : c.isAlpha = true) : (pyLower c).isAlpha = true := by
  simp only [Char.isAlpha, Bool.or_eq_true] at h ⊢
  rcases h with h | h
  · right
    have ⟨h1, h2⟩ := isUpper_toNat h
    have hl := pyLower_toNat_upper h1 h2
    exact isLower_of_toNat (by omega) (by omega)
  · right
    have ⟨h1, h2⟩ := isLower_toNat h
    rw [pyLower_of_not_upper (by omega)]
    exact h

theorem pyLower_idem (c : Char) : pyLower (pyLower c) = pyLower c := by
  by_cases h : 65 ≤ c.toNat ∧ c.toNat ≤ 90
  · have hl := pyLower_toNat_upper h.1 h.2
    exact pyLower_of_not_upper (by omega)
  · rw [pyLower_of_not_upper h, pyLower_of_not_upper h]

theorem pyLower_schemeChar {c : Char} (h : schemeChar c = true) :
    schemeChar (pyLower c) = true := by
  simp only [schemeChar, Bool.or_eq_true, beq_iff_eq] at h ⊢
  rcases h with ((((h | h) | h) | h) | h)
  · exact Or.inl (Or.inl (Or.inl (Or.inl (pyLower_isAlpha h))))
  · have ⟨h1, h2⟩ := isDigit_toNat h
    rw [pyLower_of_not_upper (by omega)]
    exact Or.inl (Or.inl (Or.inl (Or.inr h)))
  all_goals
    subst h
    rw [pyLower_of_not_upper (by decide)]
    simp

theorem pyLower_ne_colon {c : Char} (h : schemeChar c = true) : pyLower c ≠ ':' := by
  intro heq
  have := pyLower_schemeChar h
  rw [heq] at this
  exact absurd this (by decide)

theorem isAlpha_not_c0 {c : Char} (h : c.isAlpha = true) : isC0OrSpace c = false := by
  simp only [Char.isAlpha, Bool.or_eq_true] at h
  simp only [isC0OrSpace, decide_eq_false_iff_not, not_le]
  rcases h with h | h
  · have := isUpper_toNat h
    omega
  · have := isLower_toNat h
    omega

theorem schemeChar_safe {c : Char} (h : schemeChar c = true) :
    isUnsafeByte c = false := by
  by_contra hc
  simp only [isUnsafeByte, Bool.or_eq_true, beq_iff_eq, Bool.not_eq_false] at hc
  rcases hc with ((rfl | rfl) | rfl) <;> exact absurd h (by decide)

theorem takeWhile_append_all {α : Type} {q : α → Bool} :
    ∀ (x y : List α), (∀ c ∈ x, q c = true) → (x ++ y).takeWhile q = x ++ y.takeWhile q := by
  intro x y hx
  induction x with
  | nil => simp
  | cons c x ih =>
    have hc : q c = true := hx c (List.mem_cons_self _ _)
    simp only [List.cons_append, List.takeWhile_cons, hc, if_pos]
    rw [ih (fun d hd => hx d (List.mem_cons_of_mem _ hd))]

theorem dropWhile_append_all {α : Type} {q : α → Bool} :
    ∀ (x y : List α), (∀ c ∈ x, q c = true) → (x ++ y).dropWhile q = y.dropWhile q := by
  intro x y hx
  induction x with
  | nil => simp
  | cons c x ih =>
    have hc : q c = true := hx c (List.mem_cons_self _ _)
    simp only [List.cons_append, List.dropWhile_cons, hc, if_pos]
    exact ih (fun d hd => hx d (List.mem_cons_of_mem _ hd))

theorem takeWhile_append_stop {α : Type} {q : α → Bool} :
    ∀ (x y : List α), (∃ c ∈ x, q c = false) → (x ++ y).takeWhile q = x.takeWhile q := by
  intro x y hx
  induction x with
  | nil => simp at hx
  | cons c x ih =>
    by_cases hc : q c = true
    · simp only [List.cons_append, List.takeWhile_cons, hc, if_pos]
      rcases hx with ⟨d, hd, hdq⟩
      rcases List.mem_cons.1 hd with rfl | hd2
      · rw [hc] at hdq; cases hdq
      · rw [ih ⟨d, hd2, hdq⟩]
    · have hc2 : q c = false := Bool.not_eq_true _ ▸ (by simpa using hc)
      simp [List.takeWhile_cons, hc2]

theorem dropWhile_append_stop {α : Type} {q : α → Bool} :
    ∀ (x y : List α), (∃ c ∈ x, q c = false) → (x ++ y).dropWhile q = x.dropWhile q ++ y := by
  intro x y hx
  induction x with
  | nil => simp at hx
  | cons c x ih =>
    by_cases hc : q c = true
    · simp only [List.cons_append, List.dropWhile_cons, hc, if_pos]
      rcases hx with ⟨d, hd, hdq⟩
      rcases List.mem_cons.1 hd with rfl | hd2
      · rw [hc] at hdq; cases hdq
      · exact ih ⟨d, hd2, hdq⟩
    · have hc2 : q c = false := by simpa using hc
      simp [List.dropWhile_cons, hc2]

theorem dropWhile_head_false {α : Type} {q : α → Bool} :
    ∀ {l : List α} {c : α} {t : List α}, l.dropWhile q = c :: t → q c = false := by
  intro l
  induction l with
  | nil => intro c t h; cases h
  | cons a l ih =>
    intro c t h
    by_cases ha : q a = true
    · rw [List.dropWhile_cons, if_pos ha] at h
      exact ih h
    · rw [List.dropWhile_cons, if_neg ha] at h
      cases h
      simpa using ha

theorem splitScheme_of_no_colon {l : List Char} (h : ∀ c ∈ l, c ≠ ':') :
    splitScheme l = none := by
  unfold splitScheme
  rw [List.span_eq_take_drop]
  have hd : l.dropWhile (fun c => c ≠ ':') = [] :=
    List.dropWhile_eq_nil_iff.2 (fun x hx => by simpa using h x hx)
  rw [hd]

theorem splitScheme_of_colon {l pre rest : List Char}
    (ht : l.takeWhile (fun c => c ≠ ':') = pre)
    (hd : l.dropWhile (fun c => c ≠ ':') = ':' :: rest) :
    splitScheme l = if validScheme pre then some (pre.map pyLower, rest) else none := by
  unfold splitScheme
  rw [List.span_eq_take_drop, ht, hd]

theorem splitScheme_append {s r : List Char} (hv : validScheme s = true)
    (hnc : ∀ c ∈ s, c ≠ ':') (hlow : s.map pyLower = s) :
    splitScheme (s ++ ':' :: r) = some (s, r) := by
  have hq : ∀ c ∈ s, (fun c => (c ≠ ':' : Bool)) c = true := fun c hc => by
    simpa using hnc c hc
  have ht : (s ++ ':' :: r).takeWhile (fun c => c ≠ ':') = s := by
    rw [takeWhile_append_all s (':' :: r) hq, List.takeWhile_cons]
    simp
  have hd : (s ++ ':' :: r).dropWhile (fun c => c ≠ ':') = ':' :: r := by
    rw [dropWhile_append_all s (':' :: r) hq, List.dropWhile_cons]
    simp
  rw [splitScheme_of_colon ht hd, if_pos hv, hlow]

theorem splitScheme_slash_head (l : List Char) : splitScheme ('/' :: l) = none := by
  cases hd : ('/' :: l).dropWhile (fun c => c ≠ ':') with
  | nil =>
    refine splitScheme_of_no_colon (fun c hc => ?_)
    have := List.dropWhile_eq_nil_iff.1 hd c hc
    simpa using this
  | cons c rest =>
    have hc : c = ':' := by simpa using dropWhile_head_false hd
    subst hc
    have ht : ('/' :: l).takeWhile (fun c => c ≠ ':')
        = '/' :: l.takeWhile (fun c => c ≠ ':') := by
      rw [List.takeWhile_cons]
      simp
    rw [splitScheme_of_colon ht hd]
    have hv : validScheme ('/' :: l.takeWhile (fun c => c ≠ ':')) = false := by
      simp [validScheme]
    rw [hv]
    simp

theorem splitScheme_prefix_none {l p : List Char} (h : splitScheme l = none)
    (hp : ∃ t, p ++ t = l) : splitScheme p = none := by
  obtain ⟨t, rfl⟩ := hp
  cases hdp : p.dropWhile (fun c => c ≠ ':') with
  | nil =>
    refine splitScheme_of_no_colon (fun c hc => ?_)
    have := List.dropWhile_eq_nil_iff.1 hdp c hc
    simpa using this
  | cons c rest =>
    have hc : c = ':' := by simpa using dropWhile_head_false hdp
    subst hc
    have hcol : (':' : Char) ∈ p := by
      have hmem : (':' : Char) ∈ p.dropWhile (fun c => c ≠ ':') := by
        rw [hdp]; exact List.mem_cons_self _ _
      exact (List.dropWhile_sublist _).mem hmem
    have hstop : ∃ d ∈ p, (fun c => (c ≠ ':' : Bool)) d = false := ⟨':', hcol, by simp⟩
    have ht : (p ++ t).takeWhile (fun c => c ≠ ':') = p.takeWhile (fun c => c ≠ ':') :=
      takeWhile_append_stop p t hstop
    have hd2 : (p ++ t).dropWhile (fun c => c ≠ ':') = ':' :: (rest ++ t) := by
      rw [dropWhile_append_stop p t hstop, hdp]
      rfl
    rw [splitScheme_of_colon ht hd2] at h
    by_cases hv : validScheme (p.takeWhile (fun c => c ≠ ':')) = true
    · rw [if_pos hv] at h
      cases h
    · rw [splitScheme_of_colon rfl hdp, if_neg hv]

theorem cutAt_of_not_mem {ch : Char} {l : List Char} (h : ch ∉ l) : cutAt ch l = l :=
  List.takeWhile_eq_self_iff.2 (fun x hx => by
    simp only [ne_eq, decide_eq_true_eq]
    rintro rfl
    exact h hx)

theorem mem_cutAt {ch c : Char} {l : List Char} (h : c ∈ cutAt ch l) : c ∈ l ∧ c ≠ ch :=
  ⟨(List.takeWhile_sublist _).mem h, by simpa using List.mem_takeWhile_imp h⟩

theorem cutAt_prefix_eq (ch : Char) (l : List Char) : ∃ t, cutAt ch l ++ t = l := by
  rcases List.takeWhile_prefix (l := l) (fun c => c ≠ ch) with ⟨t, ht⟩
  exact ⟨t, ht⟩

theorem splitNetloc_append {n p : List Char}
    (hn : ∀ c ∈ n, netlocBreak c = false)
    (hp : p = [] ∨ ∃ c t, p = c :: t ∧ netlocBreak c = true) :
    splitNetloc (n ++ p) = (n, p) := by
  unfold splitNetloc
  rw [List.span_eq_take_drop]
  have hq : ∀ c ∈ n, (fun c => !netlocBreak c) c = true := fun c hc => by
    simp [hn c hc]
  rcases hp with rfl | ⟨c, t, rfl, hc⟩
  · rw [List.append_nil]
    rw [List.takeWhile_eq_self_iff.2 hq, List.dropWhile_eq_nil_iff.2 hq]
  · rw [takeWhile_append_all n _ hq, dropWhile_append_all n _ hq,
      List.takeWhile_cons, List.dropWhile_cons]
    simp [hc]

theorem wls_append_lastSeg (p : List Char) : withoutLastSeg p ++ lastSeg p = p := by
  unfold withoutLastSeg lastSeg
  rw [← List.reverse_append, List.takeWhile_append_dropWhile, List.reverse_reverse]

theorem lastSeg_no_slash {p : List Char} : '/' ∉ lastSeg p := by
  intro h
  unfold lastSeg at h
  rw [List.mem_reverse] at h
  have := List.mem_takeWhile_imp h
  simp at this

theorem mem_lastSeg {c : Char} {p : List Char} (h : c ∈ lastSeg p) : c ∈ p := by
  unfold lastSeg at h
  rw [List.mem_reverse] at h
  have := (List.takeWhile_sublist _).mem h
  rwa [List.mem_reverse] at this

theorem wls_ends_slash {p : List Char} (h : '/' ∈ p) :
    ∃ a, withoutLastSeg p = a ++ ['/'] := by
  unfold withoutLastSeg
  cases hd : p.reverse.dropWhile (fun c => c ≠ '/') with
  | nil =>
    exfalso
    have hall := List.dropWhile_eq_nil_iff.1 hd
    have : ('/' : Char) ∈ p.reverse := List.mem_reverse.2 h
    have := hall _ this
    simp at this
  | cons c t =>
    have hc : c = '/' := by simpa using dropWhile_head_false hd
    subst hc
    exact ⟨t.reverse, by simp⟩

theorem lastSeg_append {a r : List Char} (h : '/' ∈ r) :
    lastSeg (a ++ r) = lastSeg r := by
  unfold lastSeg
  rw [List.reverse_append]
  rw [takeWhile_append_stop _ _ ⟨'/', List.mem_reverse.2 h, by simp⟩]

theorem lastSeg_append_no_slash {x t : List Char} (hx : ∃ a, x = a ++ ['/'])
    (ht : '/' ∉ t) : lastSeg (x ++ t) = t := by
  obtain ⟨a, rfl⟩ := hx
  unfold lastSeg
  rw [List.reverse_append]
  have hall : ∀ c ∈ t.reverse, (fun c => (c ≠ '/' : Bool)) c = true := by
    intro c hc
    simp only [ne_eq, decide_eq_true_eq]
    rintro rfl
    exact ht (List.mem_reverse.1 hc)
  rw [takeWhile_append_all _ _ hall]
  have : (a ++ ['/']).reverse = '/' :: a.reverse := by simp
  rw [this, List.takeWhile_cons]
  simp

theorem wls_append_no_slash {x t : List Char} (hx : ∃ a, x = a ++ ['/'])
    (ht : '/' ∉ t) : withoutLastSeg (x ++ t) = x := by
  obtain ⟨a, rfl⟩ := hx
  unfold withoutLastSeg
  rw [List.reverse_append]
  have hall : ∀ c ∈ t.reverse, (fun c => (c ≠ '/' : Bool)) c = true := by
    intro c hc
    simp only [ne_eq, decide_eq_true_eq]
    rintro rfl
    exact ht (List.mem_reverse.1 hc)
  rw [dropWhile_append_all _ _ hall]
  have : (a ++ ['/']).reverse = '/' :: a.reverse := by simp
  rw [this, List.dropWhile_cons]
  simp

theorem stripParams_nil : stripParams [] = [] := by decide

theorem stripParams_of_no_semi {p : List Char} (h : ';' ∉ p) : stripParams p = p := by
  unfold stripParams
  rw [if_neg h]

theorem stripParams_fix_char {p : List Char} (hfix : stripParams p = p)
    (hin : ';' ∈ p) : '/' ∈ p ∧ ';' ∉ lastSeg p := by
  unfold stripParams at hfix
  rw [if_pos hin] at hfix
  by_cases hsl : '/' ∈ p
  · rw [if_pos hsl] at hfix
    refine ⟨hsl, fun hls => ?_⟩
    rw [if_pos hls] at hfix
    have heq : withoutLastSeg p ++ (lastSeg p).takeWhile (fun c => c ≠ ';')
        = withoutLastSeg p ++ lastSeg p := by
      rw [hfix, wls_append_lastSeg]
    have hcancel := List.append_cancel_left heq
    rw [← hcancel] at hls
    have h2 := List.mem_takeWhile_imp hls
    simp at h2
  · rw [if_neg hsl] at hfix
    exfalso
    have := List.mem_takeWhile_imp (hfix ▸ hin)
    simp at this

theorem stripParams_fix_of {p : List Char}
    (h : ';' ∉ p ∨ ('/' ∈ p ∧ ';' ∉ lastSeg p)) : stripParams p = p := by
  rcases h with h | ⟨h1, h2⟩
  · exact stripParams_of_no_semi h
  · unfold stripParams
    by_cases hin : ';' ∈ p
    · rw [if_pos hin, if_pos h1, if_neg h2]
    · rw [if_neg hin]

theorem stripParams_idem (p : List Char) : stripParams (stripParams p) = stripParams p := by
  by_cases h1 : ';' ∈ p
  · by_cases h2 : '/' ∈ p
    · by_cases h3 : ';' ∈ lastSeg p
      · have hval : stripParams p
            = withoutLastSeg p ++ (lastSeg p).takeWhile (fun c => c ≠ ';') := by
          unfold stripParams
          rw [if_pos h1, if_pos h2, if_pos h3]
        rw [hval]
        refine stripParams_fix_of (Or.inr ⟨?_, ?_⟩)
        · rcases wls_ends_slash h2 with ⟨a, ha⟩
          rw [ha]
          exact List.mem_append.2 (Or.inl (List.mem_append.2 (Or.inr (List.mem_cons_self _ _))))
        · have hls : lastSeg (withoutLastSeg p ++ (lastSeg p).takeWhile (fun c => c ≠ ';'))
              = (lastSeg p).takeWhile (fun c => c ≠ ';') := by
            refine lastSeg_append_no_slash (wls_ends_slash h2) (fun hsl => ?_)
            exact lastSeg_no_slash ((List.takeWhile_sublist _).mem hsl)
          rw [hls]
          intro hmem
          have := List.mem_takeWhile_imp hmem
          simp at this
      · have hval : stripParams p = p := by
          unfold stripParams
          rw [if_pos h1, if_pos h2, if_neg h3]
        rw [hval, hval]
    · have hval : stripParams p = p.takeWhile (fun c => c ≠ ';') := by
        unfold stripParams
        rw [if_pos h1, if_neg h2]
      rw [hval]
      refine stripParams_of_no_semi (fun hmem => ?_)
      have := List.mem_takeWhile_imp hmem
      simp at this
  · rw [stripParams_of_no_semi h1, stripParams_of_no_semi h1]

theorem stripParams_prefix_eq (p : List Char) : ∃ t, stripParams p ++ t = p := by
  by_cases h1 : ';' ∈ p
  · by_cases h2 : '/' ∈ p
    · by_cases h3 : ';' ∈ lastSeg p
      · have hval : stripParams p
            = withoutLastSeg p ++ (lastSeg p).takeWhile (fun c => c ≠ ';') := by
          unfold stripParams
          rw [if_pos h1, if_pos h2, if_pos h3]
        rcases List.takeWhile_prefix (l := lastSeg p) (fun c => c ≠ ';') with ⟨t, ht⟩
        refine ⟨t, ?_⟩
        rw [hval, List.append_assoc, ht, wls_append_lastSeg]
      · exact ⟨[], by
          unfold stripParams
          rw [if_pos h1, if_pos h2, if_neg h3, List.append_nil]⟩
    · have hval : stripParams p = p.takeWhile (fun c => c ≠ ';') := by
        unfold stripParams
        rw [if_pos h1, if_neg h2]
      rcases List.takeWhile_prefix (l := p) (fun c => c ≠ ';') with ⟨t, ht⟩
      exact ⟨t, by rw [hval, ht]⟩
  · exact ⟨[], by rw [stripParams_of_no_semi h1, List.append_nil]⟩

theorem stripParams_cons_slash {p : List Char} (h : stripParams p = p) :
    stripParams ('/' :: p) = '/' :: p := by
  by_cases hin : ';' ∈ ('/' :: p)
  · have hp : ';' ∈ p := by
      rcases List.mem_cons.1 hin with heq | hp
      · cases heq
      · exact hp
    obtain ⟨h1, h2⟩ := stripParams_fix_char h hp
    refine stripParams_fix_of (Or.inr ⟨List.mem_cons_self _ _, ?_⟩)
    have : lastSeg ('/' :: p) = lastSeg p := lastSeg_append (a := ['/']) h1
    rw [this]
    exact h2
  · exact stripParams_of_no_semi hin

theorem stripParams_suffix {p a r : List Char} (h : stripParams p = p)
    (hsplit : a ++ r = p) (hr : r = [] ∨ ∃ t, r = '/' :: t) :
    stripParams r = r := by
  rcases hr with rfl | ⟨t, rfl⟩
  · exact stripParams_nil
  · by_cases hin : ';' ∈ ('/' :: t)
    · have hpmem : ';' ∈ p := by
        rw [← hsplit]
        exact List.mem_append.2 (Or.inr hin)
      obtain ⟨h1, h2⟩ := stripParams_fix_char h hpmem
      refine stripParams_fix_of (Or.inr ⟨List.mem_cons_self _ _, ?_⟩)
      have hls : lastSeg p = lastSeg ('/' :: t) := by
        rw [← hsplit]
        exact lastSeg_append (List.mem_cons_self _ _)
      rw [← hls]
      exact h2
    · exact stripParams_of_no_semi hin

theorem badByte_c0 {c : Char} (h : isUnsafeByte c = true) : isC0OrSpace c = true := by
  simp only [isUnsafeByte, Bool.or_eq_true, beq_iff_eq] at h
  rcases h with (rfl | rfl) | rfl <;> decide

theorem cleanUrl_eq_self {l : List Char}
    (h1 : l = [] ∨ ∃ c t, l = c :: t ∧ isC0OrSpace c = false)
    (h2 : ∀ c ∈ l, isUnsafeByte c = false) : cleanUrl l = l := by
  unfold cleanUrl
  have hdrop : l.dropWhile isC0OrSpace = l := by
    rcases h1 with rfl | ⟨c, t, rfl, hc⟩
    · rfl
    · rw [List.dropWhile_cons, if_neg (by simp [hc])]
  rw [hdrop]
  exact List.filter_eq_self.2 (fun c hc => by simp [h2 c hc])

theorem cleanUrl_head {l : List Char} {c : Char} {t : List Char}
    (h : cleanUrl l = c :: t) : isC0OrSpace c = false := by
  unfold cleanUrl at h
  cases hd : l.dropWhile isC0OrSpace with
  | nil => rw [hd] at h; cases h
  | cons d t2 =>
    rw [hd] at h
    have hdc : isC0OrSpace d = false := dropWhile_head_false hd
    have hdu : isUnsafeByte d = false := by
      by_contra hu
      rw [badByte_c0 (by simpa using hu)] at hdc
      cases hdc
    rw [List.filter_cons_of_pos (by simp [hdu])] at h
    cases h
    exact hdc

theorem mem_cleanUrl_safe {c : Char} {l : List Char} (h : c ∈ cleanUrl l) :
    isUnsafeByte c = false := by
  unfold cleanUrl at h
  have := List.of_mem_filter h
  simpa using this

theorem mem_cleanUrl_mem {c : Char} {l : List Char} (h : c ∈ cleanUrl l) : c ∈ l := by
  unfold cleanUrl at h
  exact (List.dropWhile_sublist _).mem ((List.filter_sublist _).mem h)

theorem netlocBreak_cases {c : Char} (h : netlocBreak c = true) :
    c = '/' ∨ c = '?' ∨ c = '#' := by
  simp only [netlocBreak, Bool.or_eq_true, beq_iff_eq] at h
  tauto

theorem pathParams_idem (s p0 : List Char) :
    pathParams s (pathParams s p0) = pathParams s p0 := by
  unfold pathParams
  by_cases h : s.asString ∈ uses_params
  · rw [if_pos h, if_pos h, stripParams_idem]
  · rw [if_neg h, if_neg h]

theorem pathParams_prefix_eq (s p0 : List Char) : ∃ t, pathParams s p0 ++ t = p0 := by
  unfold pathParams
  by_cases h : s.asString ∈ uses_params
  · rw [if_pos h]
    exact stripParams_prefix_eq p0
  · rw [if_neg h]
    exact ⟨[], List.append_nil _⟩

theorem mem_pathParams {c : Char} {s p0 : List Char} (h : c ∈ pathParams s p0) :
    c ∈ p0 := by
  rcases pathParams_prefix_eq s p0 with ⟨t, ht⟩
  rw [← ht]
  exact List.mem_append.2 (Or.inl h)

theorem validScheme_all {s : List Char} (h : validScheme s = true) :
    ∀ c ∈ s, schemeChar c = true := by
  cases s with
  | nil => cases h
  | cons c rest =>
    simp only [validScheme, Bool.and_eq_true, List.all_eq_true] at h
    exact h.2

theorem validScheme_head_alpha {s : List Char} (h : validScheme s = true) :
    ∃ c t, s = c :: t ∧ c.isAlpha = true := by
  cases s with
  | nil => cases h
  | cons c rest =>
    simp only [validScheme, Bool.and_eq_true] at h
    exact ⟨c, rest, rfl, h.1⟩

theorem map_pyLower_idem (l : List Char) : (l.map pyLower).map pyLower = l.map pyLower := by
  rw [List.map_map]
  exact List.map_congr_left (fun c _ => pyLower_idem c)

theorem validScheme_map_pyLower {pre : List Char} (h : validScheme pre = true) :
    validScheme (pre.map pyLower) = true := by
  cases pre with
  | nil => cases h
  | cons c rest =>
    simp only [validScheme, Bool.and_eq_true, List.all_eq_true] at h
    rw [List.map_cons]
    simp only [validScheme, Bool.and_eq_true, List.all_eq_true]
    constructor
    · exact pyLower_isAlpha h.1
    · intro x hx
      rcases List.mem_cons.1 hx with rfl | hx2
      · exact pyLower_schemeChar (h.2 c (List.mem_cons_self _ _))
      · rcases List.mem_map.1 hx2 with ⟨y, hy, rfl⟩
        exact pyLower_schemeChar (h.2 y (List.mem_cons_of_mem _ hy))

theorem map_pyLower_no_colon {pre : List Char} (h : ∀ c ∈ pre, schemeChar c = true) :
    ∀ c ∈ pre.map pyLower, c ≠ ':' := by
  intro c hc
  rcases List.mem_map.1 hc with ⟨y, hy, rfl⟩
  exact pyLower_ne_colon (h y hy)

theorem prefix_trans {a b c : List Char} (h1 : ∃ t, a ++ t = b) (h2 : ∃ t, b ++ t = c) :
    ∃ t, a ++ t = c := by
  obtain ⟨t1, rfl⟩ := h1
  obtain ⟨t2, rfl⟩ := h2
  exact ⟨t1 ++ t2, by rw [List.append_assoc]⟩

theorem stripParams_slash_head (q : List Char) :
    ∃ q2, stripParams ('/' :: q) = '/' :: q2 := by
  have hne : stripParams ('/' :: q) ≠ [] := by
    unfold stripParams
    by_cases h1 : ';' ∈ ('/' :: q)
    · rw [if_pos h1, if_pos (List.mem_cons_self '/' q)]
      by_cases h3 : ';' ∈ lastSeg ('/' :: q)
      · rw [if_pos h3]
        rcases wls_ends_slash (p := '/' :: q) (List.mem_cons_self _ _) with ⟨a, ha⟩
        rw [ha]
        simp
      · rw [if_neg h3]
        simp
    · rw [if_neg h1]
      simp
  rcases stripParams_prefix_eq ('/' :: q) with ⟨t, ht⟩
  cases hs : stripParams ('/' :: q) with
  | nil => exact absurd hs hne
  | cons c q2 =>
    rw [hs] at ht
    have : c = '/' := by
      have := congrArg (List.head?) ht
      simpa using this
    subst this
    exact ⟨q2, rfl⟩

theorem pathParams_nil (s : List Char) : pathParams s [] = [] := by
  unfold pathParams
  rw [stripParams_nil]
  simp

theorem pathParams_slash_head (s q : List Char) :
    ∃ q2, pathParams s ('/' :: q) = '/' :: q2 := by
  unfold pathParams
  by_cases h : s.asString ∈ uses_params
  · rw [if_pos h]
    exact stripParams_slash_head q
  · rw [if_neg h]
    exact ⟨q, rfl⟩

theorem splitScheme_nil : splitScheme ([] : List Char) = none := rfl

theorem splitScheme_some_inv {l s r : List Char} (h : splitScheme l = some (s, r)) :
    (∃ pre, validScheme pre = true ∧ s = pre.map pyLower) ∧ (∀ c ∈ r, c ∈ l) := by
  unfold splitScheme at h
  rw [List.span_eq_take_drop] at h
  cases hd : l.dropWhile (fun c => c ≠ ':') with
  | nil =>
    rw [hd] at h
    cases h
  | cons c rest =>
    rw [hd] at h
    have h2 : (if validScheme (l.takeWhile (fun c => c ≠ ':')) = true then
        some ((l.takeWhile (fun c => c ≠ ':')).map pyLower, rest) else none)
        = some (s, r) := h
    by_cases hv : validScheme (l.takeWhile (fun c => c ≠ ':')) = true
    · rw [if_pos hv] at h2
      injection h2 with h1
      injection h1 with hs hr
      subst hs
      subst hr
      refine ⟨⟨_, hv, rfl⟩, fun d hdm => ?_⟩
      have : d ∈ l.dropWhile (fun c => c ≠ ':') := by
        rw [hd]
        exact List.mem_cons_of_mem _ hdm
      exact (List.dropWhile_sublist _).mem this
    · rw [if_neg hv] at h2
      cases h2

theorem validScheme_ne_nil {pre : List Char} (h : validScheme pre = true) :
    pre.map pyLower ≠ [] := by
  rcases validScheme_head_alpha h with ⟨c, t, rfl, _⟩
  simp

/-- Invariants satisfied by every `(scheme, netloc, path)` triple that
`urlparse3` returns; they are what the re-parse of the unparsed URL
relies on. -/
structure ParseInv (s n p : List Char) : Prop where
  scheme_ok : s = [] ∨ (validScheme s = true ∧ s.map pyLower = s ∧ ∀ c ∈ s, c ≠ ':')
  netloc_ok : ∀ c ∈ n, netlocBreak c = false
  netloc_brackets : bracketsBad n = false
  path_no_hash : '#' ∉ p
  path_no_query : '?' ∉ p
  path_params : pathParams s p = p
  path_slash : n ≠ [] → p = [] ∨ ∃ t, p = '/' :: t
  path_no_scheme : s = [] → splitScheme p = none
  netloc_bytes : ∀ c ∈ n, isUnsafeByte c = false
  path_bytes : ∀ c ∈ p, isUnsafeByte c = false
  path_head_clean : s = [] → n = [] → (p = [] ∨ ∃ c t, p = c :: t ∧ isC0OrSpace c = false)

theorem splitNetloc_eq (l : List Char) :
    splitNetloc l
      = (l.takeWhile (fun c => !netlocBreak c), l.dropWhile (fun c => !netlocBreak c)) := by
  unfold splitNetloc
  rw [List.span_eq_take_drop]

theorem cutAt_nil (ch : Char) : cutAt ch [] = [] := rfl

theorem parseRest_wf {s1 r1 s n p : List Char}
    (h : parseRest s1 r1 = Except.ok (s, n, p))
    (hscheme : s1 = [] ∨ (validScheme s1 = true ∧ s1.map pyLower = s1 ∧ ∀ c ∈ s1, c ≠ ':'))
    (hr1bytes : ∀ c ∈ r1, isUnsafeByte c = false)
    (hr1scheme : s1 = [] → splitScheme r1 = none)
    (hr1head : s1 = [] → r1 = [] ∨ ∃ c t, r1 = c :: t ∧ isC0OrSpace c = false) :
    ParseInv s n p := by
  unfold parseRest at h
  by_cases h2 : r1.take 2 = ['/', '/']
  · rw [if_pos h2] at h
    by_cases hbr : bracketsBad (splitNetloc (r1.drop 2)).1 = true
    · rw [if_pos hbr] at h
      cases h
    · rw [if_neg hbr] at h
      injection h with h3
      injection h3 with hs h4
      injection h4 with hn hp
      subst hs
      subst hn
      subst hp
      have hXform : (splitNetloc (r1.drop 2)).2 = []
          ∨ ∃ c t, (splitNetloc (r1.drop 2)).2 = c :: t ∧ netlocBreak c = true := by
        rw [splitNetloc_eq]
        cases hX : (r1.drop 2).dropWhile (fun c => !netlocBreak c) with
        | nil => exact Or.inl rfl
        | cons c t =>
          refine Or.inr ⟨c, t, rfl, ?_⟩
          have := dropWhile_head_false hX
          simpa using this
      have hp0 : cutAt '?' (cutAt '#' (splitNetloc (r1.drop 2)).2) = []
          ∨ ∃ t, cutAt '?' (cutAt '#' (splitNetloc (r1.drop 2)).2) = '/' :: t := by
        rcases hXform with hX | ⟨c, t, hX, hc⟩
        · rw [hX, cutAt_nil, cutAt_nil]
          exact Or.inl rfl
        · rw [hX]
          rcases netlocBreak_cases hc with rfl | rfl | rfl
          · refine Or.inr ⟨cutAt '?' (cutAt '#' t), ?_⟩
            unfold cutAt
            rw [List.takeWhile_cons, if_pos (by decide), List.takeWhile_cons,
              if_pos (by decide)]
          · refine Or.inl ?_
            unfold cutAt
            rw [List.takeWhile_cons, if_pos (by decide), List.takeWhile_cons,
              if_neg (by decide)]
          · refine Or.inl ?_
            unfold cutAt
            rw [List.takeWhile_cons, if_neg (by decide)]
            rfl
      have hpform : pathParams s1 (cutAt '?' (cutAt '#' (splitNetloc (r1.drop 2)).2)) = []
          ∨ ∃ t, pathParams s1 (cutAt '?' (cutAt '#' (splitNetloc (r1.drop 2)).2))
              = '/' :: t := by
        rcases hp0 with hz | ⟨t, hz⟩
        · rw [hz, pathParams_nil]
          exact Or.inl rfl
        · rw [hz]
          exact Or.inr (pathParams_slash_head s1 t)
      have hmemX : ∀ c ∈ pathParams s1 (cutAt '?' (cutAt '#' (splitNetloc (r1.drop 2)).2)),
          c ∈ r1 := by
        intro c hc
        have h5 := mem_pathParams hc
        have h6 := (mem_cutAt h5).1
        have h7 := (mem_cutAt h6).1
        rw [splitNetloc_eq] at h7
        exact (List.drop_sublist _ _).mem ((List.dropWhile_sublist _).mem h7)
      refine ⟨hscheme, ?_, ?_, ?_, ?_, pathParams_idem s1 _, fun _ => hpform, ?_, ?_, ?_, ?_⟩
      · intro c hc
        rw [splitNetloc_eq] at hc
        have := List.mem_takeWhile_imp hc
        simpa using this
      · revert hbr
        cases bracketsBad (splitNetloc (r1.drop 2)).1 <;> simp
      · intro hmem
        have h5 := mem_pathParams hmem
        have h6 := (mem_cutAt h5).1
        exact absurd rfl (mem_cutAt h6).2
      · intro hmem
        have h5 := mem_pathParams hmem
        exact absurd rfl (mem_cutAt h5).2
      · intro _
        rcases hpform with hz | ⟨t, hz⟩
        · rw [hz]
          exact splitScheme_nil
        · rw [hz]
          exact splitScheme_slash_head t
      · intro c hc
        rw [splitNetloc_eq] at hc
        exact hr1bytes c ((List.drop_sublist _ _).mem ((List.takeWhile_sublist _).mem hc))
      · intro c hc
        exact hr1bytes c (hmemX c hc)
      · intro _ _
        rcases hpform with hz | ⟨t, hz⟩
        · exact Or.inl hz
        · exact Or.inr ⟨'/', t, hz, by decide⟩
  · rw [if_neg h2] at h
    injection h with h3
    injection h3 with hs h4
    injection h4 with hn hp
    subst hs
    subst hn
    subst hp
    have hpref : ∃ t, pathParams s1 (cutAt '?' (cutAt '#' r1)) ++ t = r1 :=
      prefix_trans (pathParams_prefix_eq s1 _)
        (prefix_trans (cutAt_prefix_eq '?' _) (cutAt_prefix_eq '#' r1))
    refine ⟨hscheme, by simp, by decide, ?_, ?_, pathParams_idem s1 _,
      fun hne => absurd rfl hne, ?_, by simp, ?_, ?_⟩
    · intro hmem
      have h5 := mem_pathParams hmem
      have h6 := (mem_cutAt h5).1
      exact absurd rfl (mem_cutAt h6).2
    · intro hmem
      have h5 := mem_pathParams hmem
      exact absurd rfl (mem_cutAt h5).2
    · intro hs1
      exact splitScheme_prefix_none (hr1scheme hs1) hpref
    · intro c hc
      obtain ⟨t, ht⟩ := hpref
      exact hr1bytes c (by rw [← ht]; exact List.mem_append.2 (Or.inl hc))
    · intro hs1 _
      cases hpp : pathParams s1 (cutAt '?' (cutAt '#' r1)) with
      | nil => exact Or.inl rfl
      | cons c t =>
        refine Or.inr ⟨c, t, rfl, ?_⟩
        obtain ⟨u, hu⟩ := hpref
        rw [hpp] at hu
        rcases hr1head hs1 with hr | ⟨c0, t0, hr, hc0⟩
        · rw [hr] at hu
          cases hu
        · rw [hr] at hu
          have : c = c0 := by
            have := congrArg List.head? hu
            simpa using this
          rw [this]
          exact hc0

theorem urlparse3_wf {l0 s n p : List Char} (h : urlparse3 l0 = Except.ok (s, n, p)) :
    ParseInv s n p := by
  unfold urlparse3 at h
  cases hs : splitScheme (cleanUrl l0) with
  | none =>
    have hso : splitSchemeOr (cleanUrl l0) = ([], cleanUrl l0) := by
      unfold splitSchemeOr
      rw [hs]
    rw [hso] at h
    refine parseRest_wf h (Or.inl rfl) (fun c hc => mem_cleanUrl_safe hc)
      (fun _ => hs) ?_
    intro _
    cases hcl : cleanUrl l0 with
    | nil => exact Or.inl rfl
    | cons c t => exact Or.inr ⟨c, t, rfl, cleanUrl_head hcl⟩
  | some sr =>
    obtain ⟨s0, r⟩ := sr
    have hso : splitSchemeOr (cleanUrl l0) = (s0, r) := by
      unfold splitSchemeOr
      rw [hs]
    rw [hso] at h
    obtain ⟨⟨pre, hpre, rfl⟩, hrmem⟩ := splitScheme_some_inv hs
    exact parseRest_wf h
      (Or.inr ⟨validScheme_map_pyLower hpre, map_pyLower_idem pre,
        map_pyLower_no_colon (validScheme_all hpre)⟩)
      (fun c hc => mem_cleanUrl_safe (hrmem c hc))
      (fun habs => absurd habs (validScheme_ne_nil hpre))
      (fun habs => absurd habs (validScheme_ne_nil hpre))

theorem netlocPart_bytes {s n p : List Char} (inv : ParseInv s n p) :
    ∀ c ∈ netlocPart s n p, isUnsafeByte c = false := by
  intro c hc
  unfold netlocPart at hc
  by_cases hB : n ≠ [] ∨ (s ≠ [] ∧ s.asString ∈ uses_netloc ∧ p.take 2 ≠ ['/', '/'])
  · rw [if_pos hB] at hc
    rcases List.mem_cons.1 hc with rfl | hc2
    · decide
    rcases List.mem_cons.1 hc2 with rfl | hc3
    · decide
    rcases List.mem_append.1 hc3 with hcn | hcp
    · exact inv.netloc_bytes c hcn
    · by_cases hins : p ≠ [] ∧ p.head? ≠ some '/'
      · rw [if_pos hins] at hcp
        rcases List.mem_cons.1 hcp with rfl | hcp2
        · decide
        · exact inv.path_bytes c hcp2
      · rw [if_neg hins] at hcp
        exact inv.path_bytes c hcp
  · rw [if_neg hB] at hc
    exact inv.path_bytes c hc

theorem unparse_bytes {s n p : List Char} (inv : ParseInv s n p) :
    ∀ c ∈ urlunparse0 s n p, isUnsafeByte c = false := by
  intro c hc
  unfold urlunparse0 at hc
  by_cases hsne : s ≠ []
  · rw [if_pos hsne] at hc
    rcases List.mem_append.1 hc with hcs | hcr
    · rcases inv.scheme_ok with rfl | ⟨hv, _, _⟩
      · cases hcs
      · exact schemeChar_safe (validScheme_all hv c hcs)
    rcases List.mem_cons.1 hcr with rfl | hcr2
    · decide
    · exact netlocPart_bytes inv c hcr2
  · rw [if_neg hsne] at hc
    exact netlocPart_bytes inv c hc

theorem unparse_clean {s n p : List Char} (inv : ParseInv s n p) :
    cleanUrl (urlunparse0 s n p) = urlunparse0 s n p := by
  refine cleanUrl_eq_self ?_ (unparse_bytes inv)
  unfold urlunparse0
  by_cases hsne : s ≠ []
  · rw [if_pos hsne]
    rcases inv.scheme_ok with rfl | ⟨hv, _, _⟩
    · exact absurd rfl hsne
    rcases validScheme_head_alpha hv with ⟨c, t, hst, hca⟩
    rw [hst]
    exact Or.inr ⟨c, _, rfl, isAlpha_not_c0 hca⟩
  · rw [if_neg hsne]
    have hs0 : s = [] := by
      by_contra hcon
      exact hsne hcon
    unfold netlocPart
    by_cases hB : n ≠ [] ∨ (s ≠ [] ∧ s.asString ∈ uses_netloc ∧ p.take 2 ≠ ['/', '/'])
    · rw [if_pos hB]
      exact Or.inr ⟨'/', _, rfl, by decide⟩
    · rw [if_neg hB]
      have hn0 : n = [] := by
        by_contra hcon
        exact hB (Or.inl hcon)
      exact inv.path_head_clean hs0 hn0

theorem cutAt_cutAt_fix {p : List Char} (h1 : '#' ∉ p) (h2 : '?' ∉ p) :
    cutAt '?' (cutAt '#' p) = p := by
  rw [cutAt_of_not_mem h1, cutAt_of_not_mem h2]

/-- Re-parsing the un-parsed triple: for every parse-produced
`(scheme, netloc, path)` whose netloc is nonempty or whose path does not
begin with `//`, parsing `urlunparse0 s n p` succeeds with the same
scheme and netloc and a path that unparses to the same URL. -/
theorem urlparse3_unparse {s n p : List Char} (inv : ParseInv s n p)
    (hside : n ≠ [] ∨ p.take 2 ≠ ['/', '/']) :
    ∃ p2, urlparse3 (urlunparse0 s n p) = Except.ok (s, n, p2)
      ∧ urlunparse0 s n p2 = urlunparse0 s n p := by
  have hclean := unparse_clean inv
  by_cases hB : n ≠ [] ∨ (s ≠ [] ∧ s.asString ∈ uses_netloc ∧ p.take 2 ≠ ['/', '/'])
  · by_cases hins : p ≠ [] ∧ p.head? ≠ some '/'
    · have hn0 : n = [] := by
        by_cases hn : n = []
        · exact hn
        · exfalso
          rcases inv.path_slash hn with rfl | ⟨t, rfl⟩
          · exact hins.1 rfl
          · exact hins.2 rfl
      subst hn0
      have hsun : s ≠ [] ∧ s.asString ∈ uses_netloc ∧ p.take 2 ≠ ['/', '/'] := by
        rcases hB with hB1 | hB2
        · exact absurd rfl hB1
        · exact hB2
      obtain ⟨c, t, rfl⟩ : ∃ c t, p = c :: t := by
        cases p with
        | nil => exact absurd rfl hins.1
        | cons c t => exact ⟨c, t, rfl⟩
      have hcslash : c ≠ '/' := by
        intro hc
        exact hins.2 (by rw [hc]; rfl)
      have hnp : netlocPart s [] (c :: t) = '/' :: '/' :: '/' :: c :: t := by
        unfold netlocPart
        rw [if_pos hB, if_pos hins]
        simp
      have hv : urlunparse0 s [] (c :: t) = s ++ ':' :: '/' :: '/' :: '/' :: c :: t := by
        unfold urlunparse0
        rw [if_pos hsun.1, hnp]
      obtain ⟨h1, h2, h3⟩ : validScheme s = true ∧ s.map pyLower = s ∧ ∀ d ∈ s, d ≠ ':' := by
        rcases inv.scheme_ok with rfl | hok
        · exact absurd rfl hsun.1
        · exact hok
      have hss : splitScheme (s ++ ':' :: '/' :: '/' :: '/' :: c :: t)
          = some (s, '/' :: '/' :: '/' :: c :: t) := splitScheme_append h1 h3 h2
      have hsor : splitSchemeOr (s ++ ':' :: '/' :: '/' :: '/' :: c :: t)
          = (s, '/' :: '/' :: '/' :: c :: t) := by
        unfold splitSchemeOr
        rw [hss]
      have hsn : splitNetloc ('/' :: c :: t) = ([], '/' :: c :: t) := by
        have := splitNetloc_append (n := []) (p := '/' :: c :: t) (by simp)
          (Or.inr ⟨'/', c :: t, rfl, by decide⟩)
        simpa using this
      have hhash : '#' ∉ ('/' :: c :: t) := by
        intro hmem
        rcases List.mem_cons.1 hmem with heq | hmem2
        · cases heq
        · exact inv.path_no_hash hmem2
      have hquery : '?' ∉ ('/' :: c :: t) := by
        intro hmem
        rcases List.mem_cons.1 hmem with heq | hmem2
        · cases heq
        · exact inv.path_no_query hmem2
      have hpp : pathParams s ('/' :: c :: t) = '/' :: c :: t := by
        unfold pathParams
        by_cases hup : s.asString ∈ uses_params
        · rw [if_pos hup]
          refine stripParams_cons_slash ?_
          have hfix := inv.path_params
          unfold pathParams at hfix
          rw [if_pos hup] at hfix
          exact hfix
        · rw [if_neg hup]
      refine ⟨'/' :: c :: t, ?_, ?_⟩
      · rw [hv] at hclean
        unfold urlparse3
        rw [hv, hclean, hsor]
        unfold parseRest
        rw [if_pos (by rfl)]
        simp only [List.drop_succ_cons, List.drop_zero]
        rw [hsn]
        rw [if_neg (by simp [bracketsBad])]
        rw [cutAt_cutAt_fix hhash hquery, hpp]
      · have hB2 : ([] : List Char) ≠ [] ∨ (s ≠ [] ∧ s.asString ∈ uses_netloc
            ∧ ('/' :: c :: t).take 2 ≠ ['/', '/']) := by
          refine Or.inr ⟨hsun.1, hsun.2.1, ?_⟩
          simp only [List.take_succ_cons, List.take_zero]
          intro heq
          injection heq with heq1 heq2
          injection heq2 with heq3
          exact hcslash heq3
        have hnp2 : netlocPart s [] ('/' :: c :: t) = '/' :: '/' :: '/' :: c :: t := by
          unfold netlocPart
          rw [if_pos hB2, if_neg (by simp)]
          simp
        unfold urlunparse0
        rw [if_pos hsun.1, hnp2, hnp, if_pos hsun.1]
    · have hpform : p = [] ∨ ∃ t2, p = '/' :: t2 := by
        rw [not_and_or] at hins
        rcases hins with h | h
        · exact Or.inl (not_not.1 h)
        · have hh : p.head? = some '/' := not_not.1 h
          cases p with
          | nil => cases hh
          | cons c t =>
            injection hh with hc
            exact Or.inr ⟨t, by rw [hc]⟩
      have hnp : netlocPart s n p = '/' :: '/' :: (n ++ p) := by
        unfold netlocPart
        rw [if_pos hB, if_neg (by rw [not_and_or] at hins ⊢; exact hins)]
      have hsn : splitNetloc (n ++ p) = (n, p) := by
        refine splitNetloc_append inv.netloc_ok ?_
        rcases hpform with rfl | ⟨t2, rfl⟩
        · exact Or.inl rfl
        · exact Or.inr ⟨'/', t2, rfl, by decide⟩
      have hcut : cutAt '?' (cutAt '#' p) = p :=
        cutAt_cutAt_fix inv.path_no_hash inv.path_no_query
      refine ⟨p, ?_, rfl⟩
      rcases inv.scheme_ok with rfl | ⟨h1, h2, h3⟩
      · have hv : urlunparse0 [] n p = '/' :: '/' :: (n ++ p) := by
          unfold urlunparse0
          rw [if_neg (by simp), hnp]
        rw [hv] at hclean
        unfold urlparse3
        rw [hv, hclean]
        have hnone : splitScheme ('/' :: '/' :: (n ++ p)) = none := splitScheme_slash_head _
        have hsor : splitSchemeOr ('/' :: '/' :: (n ++ p)) = ([], '/' :: '/' :: (n ++ p)) := by
          unfold splitSchemeOr
          rw [hnone]
        rw [hsor]
        unfold parseRest
        rw [if_pos (by rfl)]
        simp only [List.drop_succ_cons, List.drop_zero]
        rw [hsn]
        rw [if_neg (by rw [inv.netloc_brackets]; simp)]
        rw [hcut, inv.path_params]
      · have hsne : s ≠ [] := by
          rcases validScheme_head_alpha h1 with ⟨c, t, rfl, _⟩
          simp
        have hv : urlunparse0 s n p = s ++ ':' :: '/' :: '/' :: (n ++ p) := by
          unfold urlunparse0
          rw [if_pos hsne, hnp]
        rw [hv] at hclean
        unfold urlparse3
        rw [hv, hclean]
        have hss : splitScheme (s ++ ':' :: '/' :: '/' :: (n ++ p))
            = some (s, '/' :: '/' :: (n ++ p)) := splitScheme_append h1 h3 h2
        have hsor : splitSchemeOr (s ++ ':' :: '/' :: '/' :: (n ++ p))
            = (s, '/' :: '/' :: (n ++ p)) := by
          unfold splitSchemeOr
          rw [hss]
        rw [hsor]
        unfold parseRest
        rw [if_pos (by rfl)]
        simp only [List.drop_succ_cons, List.drop_zero]
        rw [hsn]
        rw [if_neg (by rw [inv.netloc_brackets]; simp)]
        rw [hcut, inv.path_params]
  · have hn0 : n = [] := by
      by_contra hcon
      exact hB (Or.inl hcon)
    subst hn0
    have htake : p.take 2 ≠ ['/', '/'] := by
      rcases hside with h | h
      · exact absurd rfl h
      · exact h
    have hnp : netlocPart s [] p = p := by
      unfold netlocPart
      rw [if_neg hB]
    have hcut : cutAt '?' (cutAt '#' p) = p :=
      cutAt_cutAt_fix inv.path_no_hash inv.path_no_query
    refine ⟨p, ?_, rfl⟩
    rcases inv.scheme_ok with rfl | ⟨h1, h2, h3⟩
    · have hv : urlunparse0 [] [] p = p := by
        unfold urlunparse0
        rw [if_neg (by simp), hnp]
      rw [hv] at hclean
      unfold urlparse3
      rw [hv, hclean]
      have hnone : splitScheme p = none := inv.path_no_scheme rfl
      have hsor : splitSchemeOr p = ([], p) := by
        unfold splitSchemeOr
        rw [hnone]
      rw [hsor]
      unfold parseRest
      rw [if_neg htake]
      rw [hcut, inv.path_params]
    · have hsne : s ≠ [] := by
        rcases validScheme_head_alpha h1 with ⟨c, t, rfl, _⟩
        simp
      have hv : urlunparse0 s [] p = s ++ ':' :: p := by
        unfold urlunparse0
        rw [if_pos hsne, hnp]
      rw [hv] at hclean
      unfold urlparse3
      rw [hv, hclean]
      have hss : splitScheme (s ++ ':' :: p) = some (s, p) := splitScheme_append h1 h3 h2
      have hsor : splitSchemeOr (s ++ ':' :: p) = (s, p) := by
        unfold splitSchemeOr
        rw [hss]
      rw [hsor]
      unfold parseRest
      rw [if_neg htake]
      rw [hcut, inv.path_params]

theorem asString_toList (l : List Char) : (l.asString).toList = l := rfl

theorem asString_eq_empty_iff (l : List Char) : l.asString = "" ↔ l = [] := by
  constructor
  · intro h
    have := congrArg String.toList h
    simpa [asString_toList] using this
  · rintro rfl
    rfl

/-- The list-level `_normalize_url` body: the parse-rebuild with the
identity fallback on `ValueError`. -/
def normList (l : List Char) : List Char :=
  match urlparse3 l with
  | Except.error _ => l
  | Except.ok (s, n, p) => urlunparse0 s n p

theorem _normalize_url_asString {l : List Char} (h : ¬ l.asString = "") :
    _normalize_url l.asString = (normList l).asString := by
  unfold _normalize_url normList
  rw [if_neg h, asString_toList]
  cases hp : urlparse3 l with
  | error e => rfl
  | ok triple =>
    obtain ⟨s, n, p⟩ := triple
    rfl

theorem normList_fix {s n p : List Char} (inv : ParseInv s n p)
    (hside : n ≠ [] ∨ p.take 2 ≠ ['/', '/']) :
    normList (urlunparse0 s n p) = urlunparse0 s n p := by
  obtain ⟨p2, hp2, hback⟩ := urlparse3_unparse inv hside
  unfold normList
  rw [hp2]
  exact hback

/-- A URL is nondegenerate when its parse either raises, or yields a
nonempty netloc or a path not beginning with `//`.  Every URL with a
host, every relative path and every unparseable string is
nondegenerate; the exceptions are scheme-relative shells such as
`////`. -/
def nondegenerate (u : String) : Bool :=
  match urlparse3 u.toList with
  | Except.error _ => true
  | Except.ok (_, n, p) => decide (n ≠ [] ∨ p.take 2 ≠ ['/', '/'])

theorem normalize_idem_of_nondegenerate (u : String) (h : nondegenerate u = true) :
    _normalize_url (_normalize_url u) = _normalize_url u := by
  by_cases hu : u = ""
  · subst hu
    rfl
  · cases hp : urlparse3 u.toList with
    | error e =>
      have h1 : _normalize_url u = u := by
        unfold _normalize_url
        rw [if_neg hu, hp]
      rw [h1]
      exact h1
    | ok triple =>
      obtain ⟨s, n, p⟩ := triple
      have h1 : _normalize_url u = (urlunparse0 s n p).asString := by
        unfold _normalize_url
        rw [if_neg hu, hp]
      have hside : n ≠ [] ∨ p.take 2 ≠ ['/', '/'] := by
        unfold nondegenerate at h
        rw [hp] at h
        exact of_decide_eq_true h
      rw [h1]
      by_cases hv : urlunparse0 s n p = []
      · rw [hv]
        rfl
      · have hne : ¬ (urlunparse0 s n p).asString = "" := by
          rw [asString_eq_empty_iff]
          exact hv
        rw [_normalize_url_asString hne, normList_fix (urlparse3_wf hp) hside]

/-- C5 counterexample: `_normalize_url` is not idempotent on the code —
on the degenerate input `////` (empty netloc, path `//`) the first pass
gives `//` and the second collapses that to the empty string. -/
theorem normalize_idem_counterexample :
    _normalize_url (_normalize_url ("////")) ≠ _normalize_url ("////")
    ∧ _normalize_url ("////") = ("//")
    ∧ _normalize_url ("//") = ("") := by
  refine ⟨by decide, by decide, by decide⟩

/-- C5 amended: `_normalize_url` strips query and fragment keeping
scheme, host and path; it never throws, returning unparseable input
unchanged; and it is idempotent on every nondegenerate input — every
input whose parse raises, or yields a nonempty netloc or a path not
beginning with `//` (the exception being degenerate netloc-less inputs
such as `////`). -/
theorem normalize_url_correct :
    _normalize_url ("https://x.com/job/7?utm_source=a#frag") = ("https://x.com/job/7")
    ∧ (∀ u : String, nondegenerate u = true →
        _normalize_url (_normalize_url u) = _normalize_url u)
    ∧ (∀ u : String, (urlparse3 u.toList).isOk = false → _normalize_url u = u)
    ∧ _normalize_url ("http://[bad") = ("http://[bad") := by
  refine ⟨by decide, normalize_idem_of_nondegenerate, ?_, by decide⟩
  intro u h
  by_cases hu : u = ""
  · subst hu
    exact absurd h (by decide)
  · unfold _normalize_url
    rw [if_neg hu]
    cases hp : urlparse3 u.toList with
    | error e => rfl
    | ok triple =>
      rw [hp] at h
      cases h

/-- Witness for C5's amended theorem: idempotence at a concrete
well-formed URL and identity fallback at a concrete invalid one. -/
theorem normalize_url_correct_witness :
    _normalize_url (_normalize_url ("https://x.com/a")) = _normalize_url ("https://x.com/a")
    ∧ _normalize_url ("http://[x") = ("http://[x") := by
  constructor
  · exact normalize_url_correct.2.1 ("https://x.com/a") (by decide)
  · exact normalize_url_correct.2.2.1 ("http://[x") (by decide)

/-- C10 counterexample: params are split only for schemes in
`uses_params`; two `mailto:` URLs differing only in their path params
are both parseable yet keep their params, so they do not collapse to
one identity. -/
theorem params_collapse_counterexample :
    (urlparse3 ("mailto:a;p1").toList).isOk = true
    ∧ (urlparse3 ("mailto:a;p2").toList).isOk = true
    ∧ _normalize_url ("mailto:a;p1") ≠ _normalize_url ("mailto:a;p2") := by
  refine ⟨by decide, by decide, by decide⟩

/-- C10 amended: for every parseable URL the result is rebuilt from
scheme, netloc and path alone; the path-params `;` segment is stripped
when the (lowercased) scheme is in `uses_params` — which covers the
empty scheme, http and https — so such URLs differing only in params
collapse to one identity key, while other schemes keep the params in
the path; empty input maps to the empty string. -/
theorem normalize_url_params :
    _normalize_url ("https://x.com/job/7;sess=1?q=2#f") = ("https://x.com/job/7")
    ∧ _normalize_url ("https://x.com/a;p1") = _normalize_url ("https://x.com/a;p2")
    ∧ rowKey (mk_row ("acme") ("greenhouse") none none (some ("7")) (some ("https://x.com/a;p1"))
          none none ⟨2026, 1, 2, 3, 4, 5⟩)
        = rowKey (mk_row ("acme") ("greenhouse") none none (some ("7")) (some ("https://x.com/a;p2"))
          none none ⟨2026, 1, 2, 3, 4, 5⟩)
    ∧ (∀ (l : List Char) (s n p : List Char), urlparse3 l = Except.ok (s, n, p) →
        _normalize_url l.asString = (urlunparse0 s n p).asString)
    ∧ _normalize_url ("mailto:a;p1") = ("mailto:a;p1")
    ∧ _normalize_url ("") = ("") := by
  refine ⟨by decide, by decide, by decide, ?_, by decide, rfl⟩
  intro l s n p hp
  by_cases hl : l.asString = ""
  · have hl2 : l = [] := (asString_eq_empty_iff l).1 hl
    subst hl2
    have hc : urlparse3 ([] : List Char)
        = Except.ok (([] : List Char), ([] : List Char), ([] : List Char)) := rfl
    rw [hc] at hp
    injection hp with hp2
    injection hp2 with hs hp3
    injection hp3 with hn hpp
    subst hs
    subst hn
    subst hpp
    decide
  · unfold _normalize_url
    rw [if_neg hl, asString_toList, hp]

/-- Witness for C10's general clause at a concrete parsed URL. -/
theorem normalize_url_params_witness :
    _normalize_url (("https://h/p;x").toList.asString)
      = (urlunparse0 (("https").toList) (("h").toList) (("/p").toList)).asString := by
  exact normalize_url_params.2.2.2.1 ("https://h/p;x").toList (("https").toList) (("h").toList)
    "/p".toList (by rfl)
